import Mathlib

/-!
# k_ary_random_tree (trees/k_ary_tree.hpp)

A shallow embedding of the tree-induction loop of `rfr::k_ary_random_tree::fit` and of the two
`predict` member functions.

* `the_nodes` (a `std::vector`) and `tmp_nodes` (a `std::deque`) are lists.
* `index_type` values are natural numbers; the one subtraction of the source,
  `tree_opts.max_num_nodes - k`, is taken modulo `2 ^ 32` (`index_type` is
  `unsigned int`). Node indices themselves are not reduced: the development is
  about node arrays of fewer than `2 ^ 32` nodes.
* `num_type` is modelled by `Int`: responses are compared with exact arithmetic.
* A read or write outside a container (undefined behaviour in C++) makes the
  embedded function return `fit_error.out_of_bounds`.
* The split strategy (`make_internal_node`, declared in `nodes/k_ary_node.hpp`)
  and `std::shuffle` are parameters of the embedding.
* Line 100 hands the reference `tmp_nodes.back()` to `std::next`; it is read as
  `std::next(tmp_nodes.end(), -k)` (`legality_window`). The reading that starts `k` places
  before the last descriptor is `legality_window_from_back`; `legality_readings_agree`
  compares the two.
-/

namespace rfr

/-- The two ways in which an embedded run can stop without a result. -/
inductive fit_error where
  | out_of_bounds
  | out_of_fuel
deriving DecidableEq, Repr

/-- Modelled from the spec: the descriptor `temporary_node<num_type, index_type>` of a pending
node, declared in `nodes/temporary_node.hpp`, which is not among the sources. Its fields are
those that `fit` reads; line 53 builds the root descriptor as
`(node_index, parent_index, node_level, data_indices) = (0, 0, 0, all instances)`. -/
structure temporary_node where
  node_index : Nat
  parent_index : Nat
  node_level : Nat
  data_indices : List Nat
deriving DecidableEq, Repr

/-- Modelled from the spec: `k_ary_node<k, split_type, num_type, index_type>`, declared in
`nodes/k_ary_node.hpp`, which is not among the sources. An element of `the_nodes` is default
constructed (`unset`), turned into a leaf by `make_leaf_node`, or turned into an internal node
by `make_internal_node`. The payload `S` of an internal node (split parameters and child
indices) is owned by the split strategy. -/
inductive k_ary_node (S : Type) where
  | unset
  | leaf (data_indices : List Nat)
  | internal (split : S)
deriving DecidableEq, Repr

/-- Modelled from the spec: the part of `data_container_base<num_type, index_type>`
(`data_containers/data_container_base.hpp`, not among the sources) that `fit` reads. -/
structure data_container where
  num_features : Nat
  num_data_points : Nat
  response : Nat → Int

/-- Modelled from the spec: the fields of `tree_options<num_type, index_type>`
(`trees/tree_options.hpp`, not among the sources) that `fit` reads. The integer options are
values of `index_type`, the tolerance is a value of `num_type`. -/
structure tree_options where
  max_features : Nat
  max_depth : Nat
  min_samples_to_split : Nat
  min_samples_in_leaf : Nat
  max_num_nodes : Nat
  epsilon_purity : Int
deriving DecidableEq, Repr

/-- The variables of `fit` that live across loop iterations. -/
structure fit_state (S RNG : Type) where
  the_nodes : List (k_ary_node S)
  tmp_nodes : List temporary_node
  feature_indices : List Nat
  rng : RNG
deriving DecidableEq, Repr

/-- The member function `make_internal_node` of `nodes/k_ary_node.hpp` (not among the sources)
is a parameter of the embedding. `fit` calls it at lines 92-94 on the node
`the_nodes[front.node_index]` with the front descriptor, the data, the feature subset,
`the_nodes.size()` and the queue; it leaves an internal node and a new queue. -/
abbrev split_strategy (S : Type) :=
  k_ary_node S → temporary_node → data_container → List Nat → Nat → List temporary_node →
    S × List temporary_node

/-- The `std::shuffle` call of line 87: new order of the features and new generator state. -/
abbrev shuffle_fn (RNG : Type) := List Nat → RNG → List Nat × RNG

/-- `abs` of line 72 on exact numbers. The theorems on pure descriptors use it at 0 only:
responses that are equal have the difference 0 in every number type. -/
def num_abs (x : Int) : Int := if x < 0 then -x else x

/-- Number of values of `index_type` (`unsigned int`). -/
def index_modulus : Nat := 2 ^ 32

/-- Subtraction of `index_type`, as in `tree_opts.max_num_nodes - k` at line 83. -/
def index_sub (a b : Nat) : Nat := (a + index_modulus - b % index_modulus) % index_modulus

/-- `std::vector::resize` with default constructed new elements. -/
def resize {α : Type} (l : List α) (n : Nat) (d : α) : List α :=
  l.take n ++ List.replicate (n - l.length) d

/-- Modelled from the spec: `k_ary_node::make_leaf_node` of `nodes/k_ary_node.hpp`, which is not
part of the sources at hand. The node becomes a leaf that keeps the instance set of the
descriptor (its response aggregate is a function of that set). -/
def make_leaf_node {S : Type} (_node : k_ary_node S) (tmp : temporary_node) : k_ary_node S :=
  k_ary_node.leaf tmp.data_indices

/-- The loop of lines 71-76. The iterator is given by its position `pos` in `data_indices` and
the elements from that position on. The loop runs while the iterator differs from `begin()`
(position 0); dereferencing the iterator at `end()` is a read outside the vector. -/
def purity_scan (data : data_container) (eps ref : Int) : Nat → List Nat → Except fit_error Bool
  | pos, rest =>
    if pos = 0 then Except.ok false
    else
      match rest with
      | [] => Except.error fit_error.out_of_bounds
      | i :: rest' =>
        if num_abs (data.response i - ref) > eps then Except.ok true
        else purity_scan data eps ref (pos + 1) rest'

/-- Lines 66-77: the value of `is_not_pure` for the front descriptor. Line 69 reads
`data_indices[0]`; the scan starts at `++begin()`, position 1. -/
def is_not_pure (data : data_container) (tree_opts : tree_options) (front : temporary_node) :
    Except fit_error Bool :=
  match front.data_indices with
  | [] => Except.error fit_error.out_of_bounds
  | i0 :: rest => purity_scan data tree_opts.epsilon_purity (data.response i0) 1 rest

/-- Lines 80-83: the condition of the `if`. -/
def splitworthy (k : Nat) (tree_opts : tree_options) (front : temporary_node) (not_pure : Bool)
    (num_nodes : Nat) : Bool :=
  decide (front.node_level < tree_opts.max_depth) &&
  decide (front.data_indices.length ≥ tree_opts.min_samples_to_split) &&
  not_pure &&
  decide (num_nodes ≤ index_sub tree_opts.max_num_nodes k)

/-- Lines 61-62: grow `the_nodes` up to the node index of the back descriptor. -/
def resize_nodes {S RNG : Type} (s : fit_state S RNG) : List (k_ary_node S) :=
  match s.tmp_nodes.getLast? with
  | none => s.the_nodes
  | some back =>
    if back.node_index ≥ s.the_nodes.length then
      resize s.the_nodes (back.node_index + 1) k_ary_node.unset
    else s.the_nodes

/-- The statement `the_nodes[tmp.node_index].make_leaf_node(tmp)` of lines 114 and 119. -/
def finalize_leaf {S : Type} (the_nodes : List (k_ary_node S)) (tmp : temporary_node) :
    Except fit_error (List (k_ary_node S)) :=
  match the_nodes[tmp.node_index]? with
  | none => Except.error fit_error.out_of_bounds
  | some node => Except.ok (the_nodes.set tmp.node_index (make_leaf_node node tmp))

/-- Lines 110-114: remove `k` descriptors from the back of the queue and make the node of the
front descriptor a leaf. -/
def rollback {S RNG : Type} (k : Nat) (s : fit_state S RNG) :
    Except fit_error (fit_state S RNG) :=
  if s.tmp_nodes.length < k then Except.error fit_error.out_of_bounds
  else
    match s.tmp_nodes.take (s.tmp_nodes.length - k) with
    | [] => Except.error fit_error.out_of_bounds
    | front :: rest =>
      match finalize_leaf s.the_nodes front with
      | Except.error e => Except.error e
      | Except.ok nodes => Except.ok { s with the_nodes := nodes, tmp_nodes := front :: rest }

/-- The descriptors visited by the loop of line 100. As written the line does not compile:
`std::next` is given the reference `tmp_nodes.back()` where it needs an iterator. It is read
with the iterator `tmp_nodes.end()` in its place, `std::next(tmp_nodes.end(), -k)`: the loop
starts `k` places before the end of the queue and visits the last `k` descriptors. -/
def legality_window (k : Nat) (tmp_nodes : List temporary_node) : List temporary_node :=
  tmp_nodes.drop (tmp_nodes.length - k)

/-- Lines 98-106: the value of `illegal_split`. -/
def illegal_split (k : Nat) (tree_opts : tree_options) (tmp_nodes : List temporary_node) : Bool :=
  (legality_window k tmp_nodes).any
    (fun t => decide (t.data_indices.length < tree_opts.min_samples_in_leaf))

/-- Lines 97-115: the legality check after the split, with the rollback. A queue with fewer
than `k` descriptors would put the start of the loop before `begin()`. -/
def check_split {S RNG : Type} (k : Nat) (tree_opts : tree_options) (s : fit_state S RNG) :
    Except fit_error (fit_state S RNG) :=
  if s.tmp_nodes.length < k then Except.error fit_error.out_of_bounds
  else if illegal_split k tree_opts s.tmp_nodes then rollback k s
  else Except.ok s

/-- Lines 86-94: shuffle the features, take the first `max_features` of them and call the split
strategy on the node of the front descriptor. -/
def split_attempt {S RNG : Type} (make_internal_node : split_strategy S)
    (shuffle : shuffle_fn RNG) (data : data_container) (tree_opts : tree_options)
    (front : temporary_node) (s : fit_state S RNG) : Except fit_error (fit_state S RNG) :=
  let shuffled := shuffle s.feature_indices s.rng
  if tree_opts.max_features ≤ shuffled.1.length then
    let feature_subset := shuffled.1.take tree_opts.max_features
    match s.the_nodes[front.node_index]? with
    | none => Except.error fit_error.out_of_bounds
    | some node =>
      let r := make_internal_node node front data feature_subset s.the_nodes.length s.tmp_nodes
      Except.ok { the_nodes := s.the_nodes.set front.node_index (k_ary_node.internal r.1),
                  tmp_nodes := r.2, feature_indices := shuffled.1, rng := shuffled.2 }
  else Except.error fit_error.out_of_bounds

/-- Lines 80-120: decide between split and leaf for the front descriptor, given the value
`not_pure` that the flag `is_not_pure` has at line 82. -/
def split_or_leaf {S RNG : Type} (k : Nat) (make_internal_node : split_strategy S)
    (shuffle : shuffle_fn RNG) (data : data_container) (tree_opts : tree_options)
    (not_pure : Bool) (s : fit_state S RNG) : Except fit_error (fit_state S RNG) :=
  match s.tmp_nodes with
  | [] => Except.error fit_error.out_of_bounds
  | front :: _ =>
    if splitworthy k tree_opts front not_pure s.the_nodes.length then
      match split_attempt make_internal_node shuffle data tree_opts front s with
      | Except.error e => Except.error e
      | Except.ok s' => check_split k tree_opts s'
    else
      match finalize_leaf s.the_nodes front with
      | Except.error e => Except.error e
      | Except.ok nodes => Except.ok { s with the_nodes := nodes }

/-- Lines 66-77: the purity scan on the front descriptor of the queue. -/
def front_is_not_pure {S RNG : Type} (data : data_container) (tree_opts : tree_options)
    (s : fit_state S RNG) : Except fit_error Bool :=
  match s.tmp_nodes with
  | [] => Except.error fit_error.out_of_bounds
  | front :: _ => is_not_pure data tree_opts front

/-- Line 122: `tmp_nodes.pop_front()`. -/
def pop_front {S RNG : Type} (s : fit_state S RNG) : Except fit_error (fit_state S RNG) :=
  match s.tmp_nodes with
  | [] => Except.error fit_error.out_of_bounds
  | _ :: rest => Except.ok { s with tmp_nodes := rest }

/-- Lines 58-122: one pass through the body of the `while` loop: the resize, the purity scan,
the decision between split and leaf, and `pop_front`. -/
def fit_iteration {S RNG : Type} (k : Nat) (make_internal_node : split_strategy S)
    (shuffle : shuffle_fn RNG) (data : data_container) (tree_opts : tree_options)
    (s : fit_state S RNG) : Except fit_error (fit_state S RNG) :=
  let resized : fit_state S RNG := { s with the_nodes := resize_nodes s }
  match front_is_not_pure data tree_opts resized with
  | Except.error e => Except.error e
  | Except.ok not_pure =>
    match split_or_leaf k make_internal_node shuffle data tree_opts not_pure resized with
    | Except.error e => Except.error e
    | Except.ok s' => pop_front s'

/-- The state after at most `n` passes through the loop of lines 57-123; the passes stop when the
queue is empty. -/
def fit_run {S RNG : Type} (k : Nat) (make_internal_node : split_strategy S)
    (shuffle : shuffle_fn RNG) (data : data_container) (tree_opts : tree_options) :
    Nat → fit_state S RNG → Except fit_error (fit_state S RNG)
  | 0, s => Except.ok s
  | n + 1, s =>
    match s.tmp_nodes with
    | [] => Except.ok s
    | _ :: _ =>
      match fit_iteration k make_internal_node shuffle data tree_opts s with
      | Except.error e => Except.error e
      | Except.ok s' => fit_run k make_internal_node shuffle data tree_opts n s'

/-- Lines 40-54: the state in which the loop is entered. `the_nodes` is a member of the tree
and keeps the content it had before the call. -/
def fit_init {S RNG : Type} (the_nodes : List (k_ary_node S)) (data : data_container)
    (rng : RNG) : fit_state S RNG :=
  { the_nodes := the_nodes,
    tmp_nodes := [⟨0, 0, 0, List.range data.num_data_points⟩],
    feature_indices := List.range data.num_features,
    rng := rng }

/-- The function `fit` with a bound `fuel` on the number of passes through the loop: the state
in which the loop is left with an empty queue. -/
def fit {S RNG : Type} (k : Nat) (make_internal_node : split_strategy S)
    (shuffle : shuffle_fn RNG) (fuel : Nat) (the_nodes : List (k_ary_node S))
    (data : data_container) (tree_opts : tree_options) (rng : RNG) :
    Except fit_error (fit_state S RNG) :=
  match fit_run k make_internal_node shuffle data tree_opts fuel (fit_init the_nodes data rng) with
  | Except.error e => Except.error e
  | Except.ok s =>
    match s.tmp_nodes with
    | [] => Except.ok s
    | _ :: _ => Except.error fit_error.out_of_fuel

/-! ### Assumptions on the split strategy -/

/-- The split strategy appends exactly `k` descriptors to the queue, with the node indices
`next_index, ..., next_index + k - 1`, and leaves the descriptors already queued as they are. -/
def appends_consecutive {S : Type} (k : Nat) (make_internal_node : split_strategy S) : Prop :=
  ∀ node front data feature_subset next_index tmp_nodes, ∃ children,
    (make_internal_node node front data feature_subset next_index tmp_nodes).2 =
      tmp_nodes ++ children ∧
    children.map temporary_node.node_index = List.range' next_index k

/-- The split strategy only appends descriptors, and each of them is one level below the
descriptor that is split. -/
def appends_one_level_deeper {S : Type} (make_internal_node : split_strategy S) : Prop :=
  ∀ node front data feature_subset next_index tmp_nodes, ∃ children,
    (make_internal_node node front data feature_subset next_index tmp_nodes).2 =
      tmp_nodes ++ children ∧
    ∀ c ∈ children, c.node_level = front.node_level + 1

/-- The instance sets of the descriptors appended by the split strategy, one after the other,
are a rearrangement of the instance set of the descriptor that is split. -/
def appends_partition {S : Type} (make_internal_node : split_strategy S) : Prop :=
  ∀ node front data feature_subset next_index tmp_nodes, ∃ children,
    (make_internal_node node front data feature_subset next_index tmp_nodes).2 =
      tmp_nodes ++ children ∧
    List.Perm (children.map temporary_node.data_indices).flatten front.data_indices

/-! ### A concrete instance: binary splits in the middle of the instance sequence -/

/-- A split strategy for `k = 2`: the first half of the instances goes to the first child, the
rest to the second child. The payload of the internal node is the list of its child indices. -/
def halving_split : split_strategy (List Nat) := fun _ front _ _ next_index tmp_nodes =>
  ([next_index, next_index + 1],
   tmp_nodes ++
     [⟨next_index, front.node_index, front.node_level + 1,
        front.data_indices.take (front.data_indices.length / 2)⟩,
      ⟨next_index + 1, front.node_index, front.node_level + 1,
        front.data_indices.drop (front.data_indices.length / 2)⟩])

/-- A shuffle that keeps the order; the generator has a single state. -/
def keep_order : shuffle_fn Unit := fun feature_indices rng => (feature_indices, rng)

/-- A data set with two features and `n` data points whose responses are 0, 10, 0, 10, ... -/
def alternating (n : Nat) : data_container :=
  ⟨2, n, fun i => if i % 2 = 0 then 0 else 10⟩

/-- Options used in the examples: one feature per split, depth at most 2, at least 2 instances to
split and 2 per leaf, at most 10 nodes, tolerance 1. -/
def example_opts : tree_options := ⟨1, 2, 2, 2, 10, 1⟩

/-- The state of `fit 2 halving_split keep_order` on `alternating 4` with `example_opts` at the
head of the second pass of the loop, after the resize of lines 61-62. -/
def example_state : fit_state (List Nat) Unit :=
  { the_nodes := [k_ary_node.internal [1, 2], k_ary_node.unset, k_ary_node.unset],
    tmp_nodes := [⟨1, 0, 1, [0, 1]⟩, ⟨2, 0, 1, [2, 3]⟩],
    feature_indices := [0, 1],
    rng := () }

/-- The state `example_state` after the split attempt of lines 86-94: the strategy has made
node 1 internal and appended two descriptors with one instance each. -/
def example_state_after_attempt : fit_state (List Nat) Unit :=
  { the_nodes := [k_ary_node.internal [1, 2], k_ary_node.internal [3, 4], k_ary_node.unset],
    tmp_nodes := [⟨1, 0, 1, [0, 1]⟩, ⟨2, 0, 1, [2, 3]⟩, ⟨3, 1, 2, [0]⟩, ⟨4, 1, 2, [1]⟩],
    feature_indices := [0, 1],
    rng := () }

/-- The state of `fit 2 halving_split keep_order` on `alternating 4` with `example_opts` after
the first pass of the loop: the root has been split. -/
def example_state_after_root : fit_state (List Nat) Unit :=
  { the_nodes := [k_ary_node.internal [1, 2]],
    tmp_nodes := [⟨1, 0, 1, [0, 1]⟩, ⟨2, 0, 1, [2, 3]⟩],
    feature_indices := [0, 1],
    rng := () }

/-- The state in which `fit 2 halving_split keep_order` on `alternating 4` with `example_opts`
leaves the loop: the splits of node 1 and of node 2 have been rolled back. -/
def example_result : fit_state (List Nat) Unit :=
  { the_nodes := [k_ary_node.internal [1, 2], k_ary_node.leaf [0, 1], k_ary_node.leaf [2, 3]],
    tmp_nodes := [],
    feature_indices := [0, 1],
    rng := () }

/-- The state in which `fit 2 halving_split keep_order` on `alternating 8` leaves the loop when
`example_opts` is used with a budget of 6 nodes: node 2 is a leaf for lack of budget. -/
def budget_example_result : fit_state (List Nat) Unit :=
  { the_nodes := [k_ary_node.internal [1, 2], k_ary_node.internal [3, 4],
      k_ary_node.leaf [4, 5, 6, 7], k_ary_node.leaf [0, 1], k_ary_node.leaf [2, 3]],
    tmp_nodes := [],
    feature_indices := [0, 1],
    rng := () }

/-- The state in which `fit 2 halving_split keep_order` on `alternating 8` leaves the loop when
`example_opts` is used with `max_depth = 5`. -/
def deep_example_result : fit_state (List Nat) Unit :=
  { the_nodes := [k_ary_node.internal [1, 2], k_ary_node.internal [3, 4],
      k_ary_node.internal [5, 6], k_ary_node.leaf [0, 1], k_ary_node.leaf [2, 3],
      k_ary_node.leaf [4, 5], k_ary_node.leaf [6, 7]],
    tmp_nodes := [],
    feature_indices := [0, 1],
    rng := () }

/-- Options with `min_samples_to_split = 2` and `min_samples_in_leaf = 5`: a node with 2, 3 or
4 instances may be split but cannot be a legal child. -/
def large_leaf_opts : tree_options := ⟨1, 2, 2, 5, 10, 1⟩

/-- The state in which `fit 2 halving_split keep_order` on `alternating 2` with
`large_leaf_opts` leaves the loop: the split of the root has been rolled back. -/
def large_leaf_result : fit_state (List Nat) Unit :=
  { the_nodes := [k_ary_node.leaf [0, 1]],
    tmp_nodes := [],
    feature_indices := [0, 1],
    rng := () }

/-! ### Notions used to state the invariants of the loop -/

/-- At the head of a pass, after `c` descriptors have been consumed: the queue holds the
descriptors of the node indices `c, c + 1, ...` in this order, and the node array has at least
`c` slots and at most one slot per descriptor consumed or queued. -/
structure queue_shape {S RNG : Type} (c : Nat) (s : fit_state S RNG) : Prop where
  indices : s.tmp_nodes.map temporary_node.node_index = List.range' c s.tmp_nodes.length
  lower : c ≤ s.the_nodes.length
  upper : s.the_nodes.length ≤ c + s.tmp_nodes.length

/-- The instances kept by the leaves of a node array, leaf after leaf. -/
def leaf_instances {S : Type} : List (k_ary_node S) → List Nat
  | [] => []
  | k_ary_node.leaf data_indices :: nodes => data_indices ++ leaf_instances nodes
  | k_ary_node.unset :: nodes => leaf_instances nodes
  | k_ary_node.internal _ :: nodes => leaf_instances nodes

/-- The instances of the descriptors in the queue, descriptor after descriptor. -/
def pending_instances (tmp_nodes : List temporary_node) : List Nat :=
  (tmp_nodes.map temporary_node.data_indices).flatten

/-- The leaf-size law in the wording of the specification, for one call of `fit`: every leaf
of the completed tree has at least `min_samples_in_leaf` instances, or it is the root and has
fewer than `min_samples_to_split` instances. -/
def specified_leaf_bound {S RNG : Type} (k : Nat) (make_internal_node : split_strategy S)
    (shuffle : shuffle_fn RNG) (fuel : Nat) (data : data_container) (tree_opts : tree_options)
    (rng : RNG) : Prop :=
  ∀ s, fit k make_internal_node shuffle fuel [] data tree_opts rng = Except.ok s →
    ∀ i data_indices, s.the_nodes[i]? = some (k_ary_node.leaf data_indices) →
      tree_opts.min_samples_in_leaf ≤ data_indices.length ∨
      (i = 0 ∧ data_indices.length < tree_opts.min_samples_to_split)


/-! ### Prediction -/

/-- Lines 132-134: `predict` for a single feature vector. The body of the function is empty:
control reaches the end of a function with return type `num_type` without a `return`
statement, so a call yields no value. -/
def predict {S : Type} (_the_nodes : List (k_ary_node S)) (_feature_vector : List Int) :
    Option Int :=
  none

/-- Lines 143-145: `predict` for all data points of a data container. The body of the function
is empty as well: a call yields no vector of predictions. -/
def predict_batch {S : Type} (_the_nodes : List (k_ary_node S)) (_data : data_container) :
    Option (List Int) :=
  none

/-! ### Features, order of the passes -/

/-- Line 88: the feature subset handed to the split strategy in a split attempt on the state
`s`, the first `max_features` features of the shuffled sequence. -/
def feature_subset {S RNG : Type} (shuffle : shuffle_fn RNG) (tree_opts : tree_options)
    (s : fit_state S RNG) : List Nat :=
  (shuffle s.feature_indices s.rng).1.take tree_opts.max_features

/-- The contract of `std::shuffle`: the shuffled sequence is a rearrangement of the given
one. -/
def shuffle_permutes {RNG : Type} (shuffle : shuffle_fn RNG) : Prop :=
  ∀ feature_indices rng, List.Perm (shuffle feature_indices rng).1 feature_indices

/-- The split strategy only appends descriptors, and each of them names the split descriptor as
its parent and is one level below it. -/
def appends_children_of_front {S : Type} (make_internal_node : split_strategy S) : Prop :=
  ∀ node front data feature_subset next_index tmp_nodes, ∃ children,
    (make_internal_node node front data feature_subset next_index tmp_nodes).2 =
      tmp_nodes ++ children ∧
    ∀ c ∈ children, c.parent_index = front.node_index ∧ c.node_level = front.node_level + 1

/-- The descriptors consumed (finalized and removed from the front of the queue) by the first
`n` passes of the loop started in state `s`, in the order of the passes. -/
def fit_consumed {S RNG : Type} (k : Nat) (make_internal_node : split_strategy S)
    (shuffle : shuffle_fn RNG) (data : data_container) (tree_opts : tree_options) :
    Nat → fit_state S RNG → List temporary_node
  | 0, _ => []
  | n + 1, s =>
    match s.tmp_nodes with
    | [] => []
    | front :: _ =>
      match fit_iteration k make_internal_node shuffle data tree_opts s with
      | Except.error _ => []
      | Except.ok s' => front :: fit_consumed k make_internal_node shuffle data tree_opts n s'

/-- The descriptors that the first `n` passes of the loop started in state `s` leave in the
queue behind the descriptors that were queued before the pass (appended by the split strategy
and not removed by a rollback), in the order of the passes. -/
def fit_appended {S RNG : Type} (k : Nat) (make_internal_node : split_strategy S)
    (shuffle : shuffle_fn RNG) (data : data_container) (tree_opts : tree_options) :
    Nat → fit_state S RNG → List temporary_node
  | 0, _ => []
  | n + 1, s =>
    match s.tmp_nodes with
    | [] => []
    | _ :: rest =>
      match fit_iteration k make_internal_node shuffle data tree_opts s with
      | Except.error _ => []
      | Except.ok s' =>
        s'.tmp_nodes.drop rest.length ++
          fit_appended k make_internal_node shuffle data tree_opts n s'

/-! ### Further concrete instances -/

/-- A shuffle that rotates the sequence by one more place than the generator state says and
advances the generator. -/
def rotate_features : shuffle_fn Nat := fun feature_indices rng =>
  (feature_indices.rotate (rng + 1), rng + 1)

/-- The other reading of line 100, with an iterator to the back descriptor in the place of
`tmp_nodes.back()`: the loop starts `k` places before the last descriptor and visits `k + 1`
descriptors, the last `k` and the one before them. The embedding of `fit` does not use it; it
is compared with `legality_window` in `legality_readings_agree`. -/
def legality_window_from_back (k : Nat) (tmp_nodes : List temporary_node) :
    List temporary_node :=
  tmp_nodes.drop (tmp_nodes.length - 1 - k)

/-- The value of `illegal_split` under the reading `legality_window_from_back`. -/
def illegal_split_from_back (k : Nat) (tree_opts : tree_options)
    (tmp_nodes : List temporary_node) : Bool :=
  (legality_window_from_back k tmp_nodes).any
    (fun t => decide (t.data_indices.length < tree_opts.min_samples_in_leaf))

/-- The state in which `fit 2 halving_split keep_order` on `alternating 4` with `example_opts`
leaves the loop when it is started on the node array of `example_result`, the tree of an
earlier call with the same arguments. -/
def refit_result : fit_state (List Nat) Unit :=
  { the_nodes := [k_ary_node.internal [3, 4], k_ary_node.leaf [0, 1], k_ary_node.leaf [2, 3],
      k_ary_node.leaf [0, 1], k_ary_node.leaf [2, 3]],
    tmp_nodes := [],
    feature_indices := [0, 1],
    rng := () }

/-- The state of `fit 2 halving_split rotate_features` on `alternating 4` with `example_opts`
after the first pass of the loop, when the generator starts in state 0: the split attempt on
the root has rotated the two features once. -/
def rotated_state_after_root : fit_state (List Nat) Nat :=
  { the_nodes := [k_ary_node.internal [1, 2]],
    tmp_nodes := [⟨1, 0, 1, [0, 1]⟩, ⟨2, 0, 1, [2, 3]⟩],
    feature_indices := [1, 0],
    rng := 1 }

/-- The descriptors in the order in which `fit 2 halving_split keep_order` consumes them on
`alternating 8` when `example_opts` is used with `max_depth = 5`: the root, its two children,
then the four grandchildren. -/
def deep_example_consumed : List temporary_node :=
  [⟨0, 0, 0, [0, 1, 2, 3, 4, 5, 6, 7]⟩,
   ⟨1, 0, 1, [0, 1, 2, 3]⟩, ⟨2, 0, 1, [4, 5, 6, 7]⟩,
   ⟨3, 1, 2, [0, 1]⟩, ⟨4, 1, 2, [2, 3]⟩, ⟨5, 2, 2, [4, 5]⟩, ⟨6, 2, 2, [6, 7]⟩]

/-- Independence of the previous contents of the node array, for one call of `fit`: started on
the node array `the_nodes`, `fit` ends with the node array it ends with when started on an
empty one. -/
def independent_of_previous_nodes {S RNG : Type} (k : Nat)
    (make_internal_node : split_strategy S) (shuffle : shuffle_fn RNG) (fuel : Nat)
    (the_nodes : List (k_ary_node S)) (data : data_container) (tree_opts : tree_options)
    (rng : RNG) : Prop :=
  ∀ s fresh,
    fit k make_internal_node shuffle fuel the_nodes data tree_opts rng = Except.ok s →
    fit k make_internal_node shuffle fuel [] data tree_opts rng = Except.ok fresh →
    s.the_nodes = fresh.the_nodes

/-- The conclusion of the partition law for one call of `fit`, on whatever node array the call
finds: in the node array of the completed call every instance index below the number of data
points occurs in exactly one leaf. -/
def every_instance_in_one_leaf {S RNG : Type} (k : Nat)
    (make_internal_node : split_strategy S) (shuffle : shuffle_fn RNG) (fuel : Nat)
    (the_nodes : List (k_ary_node S)) (data : data_container) (tree_opts : tree_options)
    (rng : RNG) : Prop :=
  ∀ s, fit k make_internal_node shuffle fuel the_nodes data tree_opts rng = Except.ok s →
    ∀ i, i < data.num_data_points → (leaf_instances s.the_nodes).count i = 1


section inversion
variable {S RNG : Type}

theorem finalize_leaf_ok {the_nodes nodes : List (k_ary_node S)} {tmp : temporary_node}
    (h : finalize_leaf the_nodes tmp = Except.ok nodes) :
    tmp.node_index < the_nodes.length ∧
      nodes = the_nodes.set tmp.node_index (k_ary_node.leaf tmp.data_indices) := by
  unfold finalize_leaf at h
  split at h
  · cases h
  · next node hn =>
    have hlt := (List.getElem?_eq_some.mp hn).1
    cases h
    exact ⟨hlt, rfl⟩

theorem finalize_leaf_of_lt (the_nodes : List (k_ary_node S)) (tmp : temporary_node)
    (h : tmp.node_index < the_nodes.length) :
    finalize_leaf the_nodes tmp =
      Except.ok (the_nodes.set tmp.node_index (k_ary_node.leaf tmp.data_indices)) := by
  unfold finalize_leaf
  rw [List.getElem?_eq_getElem h]
  rfl

theorem split_attempt_ok {make_internal_node : split_strategy S} {shuffle : shuffle_fn RNG}
    {data : data_container} {tree_opts : tree_options} {front : temporary_node}
    {s s1 : fit_state S RNG}
    (h : split_attempt make_internal_node shuffle data tree_opts front s = Except.ok s1) :
    ∃ node feature_subset,
      s.the_nodes[front.node_index]? = some node ∧
      s1.the_nodes = s.the_nodes.set front.node_index (k_ary_node.internal
        (make_internal_node node front data feature_subset s.the_nodes.length s.tmp_nodes).1) ∧
      s1.tmp_nodes =
        (make_internal_node node front data feature_subset s.the_nodes.length s.tmp_nodes).2 := by
  unfold split_attempt at h
  simp only at h
  split at h
  · split at h
    · cases h
    · next node hn =>
      cases h
      exact ⟨node, _, hn, rfl, rfl⟩
  · cases h

theorem rollback_ok {k : Nat} {s s' : fit_state S RNG} (h : rollback k s = Except.ok s') :
    ∃ front rest, s.tmp_nodes.take (s.tmp_nodes.length - k) = front :: rest ∧
      front.node_index < s.the_nodes.length ∧
      s' = { s with the_nodes := s.the_nodes.set front.node_index
                      (k_ary_node.leaf front.data_indices),
                    tmp_nodes := front :: rest } := by
  unfold rollback at h
  split at h
  · cases h
  · split at h
    · cases h
    · next front rest hq =>
      split at h
      · cases h
      · next nodes hn =>
        obtain ⟨hlt, rfl⟩ := finalize_leaf_ok hn
        cases h
        exact ⟨front, rest, hq, hlt, rfl⟩

theorem check_split_ok {k : Nat} {tree_opts : tree_options} {s s' : fit_state S RNG}
    (h : check_split k tree_opts s = Except.ok s') :
    (illegal_split k tree_opts s.tmp_nodes = false ∧ s' = s) ∨
    (illegal_split k tree_opts s.tmp_nodes = true ∧ rollback k s = Except.ok s') := by
  unfold check_split at h
  split at h
  · cases h
  · split at h
    · next hi => exact Or.inr ⟨hi, h⟩
    · next hi =>
      cases h
      exact Or.inl ⟨by simpa using hi, rfl⟩

theorem split_or_leaf_ok {k : Nat} {make_internal_node : split_strategy S}
    {shuffle : shuffle_fn RNG} {data : data_container} {tree_opts : tree_options}
    {not_pure : Bool} {s s' : fit_state S RNG}
    (h : split_or_leaf k make_internal_node shuffle data tree_opts not_pure s = Except.ok s') :
    ∃ front rest, s.tmp_nodes = front :: rest ∧
      ((splitworthy k tree_opts front not_pure s.the_nodes.length = false ∧
          front.node_index < s.the_nodes.length ∧
          s' = { s with the_nodes := s.the_nodes.set front.node_index
                          (k_ary_node.leaf front.data_indices) }) ∨
       (splitworthy k tree_opts front not_pure s.the_nodes.length = true ∧
          ∃ s1, split_attempt make_internal_node shuffle data tree_opts front s = Except.ok s1 ∧
            check_split k tree_opts s1 = Except.ok s')) := by
  unfold split_or_leaf at h
  split at h
  · cases h
  · next front rest hq =>
    refine ⟨front, rest, hq, ?_⟩
    split at h
    · next hw =>
      split at h
      · cases h
      · next s1 hs1 => exact Or.inr ⟨hw, s1, hs1, h⟩
    · next hw =>
      split at h
      · cases h
      · next nodes hn =>
        obtain ⟨hlt, rfl⟩ := finalize_leaf_ok hn
        cases h
        exact Or.inl ⟨by simpa using hw, hlt, rfl⟩

end inversion

section single_pass
variable {S RNG : Type}

theorem children_mem_legality_window (k : Nat) (q children : List temporary_node)
    (hk : children.length = k) (c : temporary_node) (hc : c ∈ children) :
    c ∈ legality_window k (q ++ children) := by
  unfold legality_window
  have hle : (q ++ children).length - k ≤ q.length := by
    simp only [List.length_append]; omega
  rw [List.drop_append_of_le_length hle]
  exact List.mem_append_right _ hc

/-- C1: when the split strategy has been invoked on the front descriptor, has appended `k`
descriptors to the queue and one of them has fewer than `min_samples_in_leaf` instances, lines
80-120 end in a state whose queue is the queue before the split attempt and whose node array is
the node array before the attempt (same size) with the slot of the front descriptor holding a
leaf built from that descriptor. -/
theorem rollback_restores_queue_and_nodes (k : Nat) (make_internal_node : split_strategy S)
    (shuffle : shuffle_fn RNG) (data : data_container) (tree_opts : tree_options)
    (s s1 : fit_state S RNG) (front : temporary_node) (rest children : List temporary_node)
    (not_pure : Bool)
    (hq : s.tmp_nodes = front :: rest)
    (hw : splitworthy k tree_opts front not_pure s.the_nodes.length = true)
    (h1 : split_attempt make_internal_node shuffle data tree_opts front s = Except.ok s1)
    (hc : s1.tmp_nodes = s.tmp_nodes ++ children) (hk : children.length = k)
    (hbad : ∃ c ∈ children, c.data_indices.length < tree_opts.min_samples_in_leaf) :
    ∃ s2, split_or_leaf k make_internal_node shuffle data tree_opts not_pure s = Except.ok s2 ∧
      s2.tmp_nodes = s.tmp_nodes ∧
      s2.the_nodes.length = s.the_nodes.length ∧
      s2.the_nodes = s.the_nodes.set front.node_index (k_ary_node.leaf front.data_indices) ∧
      s2.the_nodes[front.node_index]? = some (k_ary_node.leaf front.data_indices) := by
  obtain ⟨node, fs, hnode, hn1, -⟩ := split_attempt_ok h1
  have hlt : front.node_index < s.the_nodes.length := (List.getElem?_eq_some.mp hnode).1
  have hill : illegal_split k tree_opts s1.tmp_nodes = true := by
    obtain ⟨c, hcm, hcl⟩ := hbad
    unfold illegal_split
    rw [List.any_eq_true]
    refine ⟨c, ?_, by simpa using hcl⟩
    rw [hc]
    exact children_mem_legality_window k _ _ hk c hcm
  have hlen : ¬ s1.tmp_nodes.length < k := by
    rw [hc, hq]; simp only [List.length_append, List.length_cons]; omega
  have htake : s1.tmp_nodes.take (s1.tmp_nodes.length - k) = front :: rest := by
    rw [hc, hq]
    have : ((front :: rest) ++ children).length - k = (front :: rest).length := by
      simp only [List.length_append]; omega
    rw [this, List.take_left]
  have hroll : rollback k s1 = Except.ok
      { s1 with the_nodes := s.the_nodes.set front.node_index (k_ary_node.leaf front.data_indices),
                tmp_nodes := front :: rest } := by
    unfold rollback
    rw [if_neg (by omega), htake]
    simp only
    rw [finalize_leaf_of_lt _ _ (by rw [hn1, List.length_set]; exact hlt), hn1, List.set_set]
  refine ⟨{ s1 with
      the_nodes := s.the_nodes.set front.node_index (k_ary_node.leaf front.data_indices),
      tmp_nodes := front :: rest }, ?_, ?_, ?_, rfl, ?_⟩
  · unfold split_or_leaf
    rw [hq]
    simp only [hw, if_true]
    rw [← hq, h1]
    simp only
    unfold check_split
    rw [if_neg hlen, if_pos hill, hroll, hq]
  · exact hq.symm
  · simp
  · simp [List.getElem?_set, hlt]

theorem rollback_restores_queue_and_nodes_witness :
    ∃ s2, split_or_leaf 2 halving_split keep_order (alternating 4) example_opts true
        example_state = Except.ok s2 ∧
      s2.tmp_nodes = example_state.tmp_nodes ∧
      s2.the_nodes.length = example_state.the_nodes.length ∧
      s2.the_nodes = example_state.the_nodes.set 1 (k_ary_node.leaf [0, 1]) ∧
      s2.the_nodes[1]? = some (k_ary_node.leaf [0, 1]) :=
  rollback_restores_queue_and_nodes 2 halving_split keep_order (alternating 4) example_opts
    example_state example_state_after_attempt
    ⟨1, 0, 1, [0, 1]⟩ [⟨2, 0, 1, [2, 3]⟩] [⟨3, 1, 2, [0]⟩, ⟨4, 1, 2, [1]⟩] true
    rfl rfl rfl rfl rfl ⟨⟨3, 1, 2, [0]⟩, by simp, by decide⟩

/-- Lines 80-120 for a given value of the flag `is_not_pure` at line 82: when one of the four
conditions of lines 80-83 fails for the front descriptor (its level is not below `max_depth`,
it has fewer than `min_samples_to_split` instances, the flag is false, or the node array is
larger than `max_num_nodes - k`), the slot of the front descriptor becomes a leaf with the
instance set of that descriptor and nothing else changes: the queue, the feature order and the
generator are as before, for every split strategy and every shuffle. Which values the flag can
have at line 82 is the matter of `is_not_pure_cons`. -/
theorem leaf_forced_when_not_splitworthy (k : Nat) (make_internal_node : split_strategy S)
    (shuffle : shuffle_fn RNG) (data : data_container)
    (tree_opts : tree_options) (not_pure : Bool) (s : fit_state S RNG) (front : temporary_node)
    (rest : List temporary_node)
    (hq : s.tmp_nodes = front :: rest)
    (hb : front.node_index < s.the_nodes.length)
    (hfail : ¬ front.node_level < tree_opts.max_depth ∨
      front.data_indices.length < tree_opts.min_samples_to_split ∨
      not_pure = false ∨
      index_sub tree_opts.max_num_nodes k < s.the_nodes.length) :
    split_or_leaf k make_internal_node shuffle data tree_opts not_pure s =
      Except.ok { s with
        the_nodes := s.the_nodes.set front.node_index (k_ary_node.leaf front.data_indices) } := by
  have hw : splitworthy k tree_opts front not_pure s.the_nodes.length = false := by
    unfold splitworthy
    rcases hfail with h | h | h | h
    · simp [h]
    · simp [h]
    · simp [h]
    · simp [h]
  unfold split_or_leaf
  rw [hq]
  simp only [hw]
  rw [← hq, finalize_leaf_of_lt _ _ hb]
  simp

end single_pass

section purity

theorem purity_scan_eq (data : data_container) (eps ref : Int) :
    ∀ (rest : List Nat) (pos : Nat), pos ≠ 0 →
      purity_scan data eps ref pos rest =
        if ∃ i ∈ rest, num_abs (data.response i - ref) > eps then Except.ok true
        else Except.error fit_error.out_of_bounds
  | [], pos, hpos => by
    unfold purity_scan
    simp [hpos]
  | i :: rest, pos, hpos => by
    unfold purity_scan
    rw [if_neg hpos]
    simp only
    by_cases h : num_abs (data.response i - ref) > eps
    · rw [if_pos h, if_pos ⟨i, List.mem_cons_self _ _, h⟩]
    · rw [if_neg h, purity_scan_eq data eps ref rest (pos + 1) (by omega)]
      simp [h]

/-- The outcome of lines 66-77 on a descriptor with first instance `i0`: the flag is set when
an instance after the first has a response further than `epsilon_purity` from the first one;
otherwise the scan runs into `end()` and reads outside `data_indices`. -/
theorem is_not_pure_cons (data : data_container) (tree_opts : tree_options)
    (node_index parent_index node_level i0 : Nat) (rest : List Nat) :
    is_not_pure data tree_opts ⟨node_index, parent_index, node_level, i0 :: rest⟩ =
      if ∃ i ∈ rest, num_abs (data.response i - data.response i0) > tree_opts.epsilon_purity
      then Except.ok true else Except.error fit_error.out_of_bounds := by
  unfold is_not_pure
  exact purity_scan_eq data _ _ rest 1 (by decide)

/-- C3, evaluated on the code: the scan of lines 66-77 never finds a descriptor pure: it either
sets `is_not_pure` or reads outside `data_indices`. On a descriptor with exactly one instance it
reads outside `data_indices` instead of leaving `is_not_pure` false; on the two instances of
`alternating 2`, whose responses 0 and 10 differ by more than the tolerance 1, it sets the
flag. -/
theorem purity_scan_never_finds_pure (data : data_container) (tree_opts : tree_options) :
    (∀ front, is_not_pure data tree_opts front = Except.ok true ∨
      is_not_pure data tree_opts front = Except.error fit_error.out_of_bounds) ∧
    (∀ node_index parent_index node_level i,
      is_not_pure data tree_opts ⟨node_index, parent_index, node_level, [i]⟩ =
        Except.error fit_error.out_of_bounds) ∧
    is_not_pure (alternating 2) example_opts ⟨0, 0, 0, [0, 1]⟩ = Except.ok true := by
  refine ⟨?_, ?_, rfl⟩
  · intro front
    obtain ⟨node_index, parent_index, node_level, data_indices⟩ := front
    cases data_indices with
    | nil => right; rfl
    | cons i0 rest =>
      rw [is_not_pure_cons]
      by_cases h : ∃ i ∈ rest,
          num_abs (data.response i - data.response i0) > tree_opts.epsilon_purity
      · left; rw [if_pos h]
      · right; rw [if_neg h]
  · intro node_index parent_index node_level i
    rw [is_not_pure_cons]
    simp

end purity


section passes
variable {S RNG : Type}

theorem pop_front_ok {s s' : fit_state S RNG} (h : pop_front s = Except.ok s') :
    ∃ x, s.tmp_nodes = x :: s'.tmp_nodes ∧ s'.the_nodes = s.the_nodes := by
  unfold pop_front at h
  split at h
  · cases h
  · next x rest hq =>
    cases h
    exact ⟨x, hq, rfl⟩

theorem front_is_not_pure_ok {data : data_container} {tree_opts : tree_options}
    {s : fit_state S RNG} {not_pure : Bool}
    (h : front_is_not_pure data tree_opts s = Except.ok not_pure) :
    ∃ front rest, s.tmp_nodes = front :: rest ∧
      is_not_pure data tree_opts front = Except.ok not_pure := by
  unfold front_is_not_pure at h
  split at h
  · cases h
  · next front rest hq => exact ⟨front, rest, hq, h⟩

theorem fit_iteration_ok {k : Nat} {make_internal_node : split_strategy S}
    {shuffle : shuffle_fn RNG} {data : data_container} {tree_opts : tree_options}
    {s s' : fit_state S RNG}
    (h : fit_iteration k make_internal_node shuffle data tree_opts s = Except.ok s') :
    ∃ not_pure s2, front_is_not_pure data tree_opts s = Except.ok not_pure ∧
      split_or_leaf k make_internal_node shuffle data tree_opts not_pure
        { s with the_nodes := resize_nodes s } = Except.ok s2 ∧
      ∃ x, s2.tmp_nodes = x :: s'.tmp_nodes ∧ s'.the_nodes = s2.the_nodes := by
  unfold fit_iteration at h
  simp only at h
  split at h
  · cases h
  · next not_pure hp =>
    split at h
    · cases h
    · next s2 h2 => exact ⟨not_pure, s2, hp, h2, pop_front_ok h⟩

/-- An invariant of the passes of the loop holds in every state that `fit_run` returns. -/
theorem fit_run_invariant (k : Nat) (make_internal_node : split_strategy S)
    (shuffle : shuffle_fn RNG) (data : data_container) (tree_opts : tree_options)
    (P : fit_state S RNG → Prop)
    (hstep : ∀ s s', P s → s.tmp_nodes ≠ [] →
      fit_iteration k make_internal_node shuffle data tree_opts s = Except.ok s' → P s') :
    ∀ (n : Nat) (s0 s : fit_state S RNG), P s0 →
      fit_run k make_internal_node shuffle data tree_opts n s0 = Except.ok s → P s
  | 0, s0, s, h0, h => by
    unfold fit_run at h
    cases h
    exact h0
  | n + 1, s0, s, h0, h => by
    unfold fit_run at h
    split at h
    · cases h
      exact h0
    · next x rest hq =>
      split at h
      · cases h
      · next s1 h1 =>
        exact fit_run_invariant k make_internal_node shuffle data tree_opts P hstep n s1 s
          (hstep s0 s1 h0 (by rw [hq]; simp) h1) h

/-- What one pass of the loop does when the split strategy appends `k` descriptors with
consecutive node indices: either the slot of the front descriptor becomes a leaf and the queue
loses its front (no split, or a split that was rolled back), or the slot becomes an internal
node and the queue loses its front and gains the `k` children, each with at least
`min_samples_in_leaf` instances. -/
theorem fit_iteration_cases {k : Nat} {make_internal_node : split_strategy S}
    {shuffle : shuffle_fn RNG} {data : data_container} {tree_opts : tree_options}
    {s s' : fit_state S RNG} {front : temporary_node} {rest : List temporary_node}
    (hs : appends_consecutive k make_internal_node)
    (hq : s.tmp_nodes = front :: rest)
    (h : fit_iteration k make_internal_node shuffle data tree_opts s = Except.ok s') :
    front.node_index < (resize_nodes s).length ∧
    ((s'.the_nodes = (resize_nodes s).set front.node_index (k_ary_node.leaf front.data_indices) ∧
        s'.tmp_nodes = rest) ∨
     (∃ split children node feature_subset,
        (make_internal_node node front data feature_subset (resize_nodes s).length
          (front :: rest)).2 = (front :: rest) ++ children ∧
        children.map temporary_node.node_index = List.range' (resize_nodes s).length k ∧
        splitworthy k tree_opts front true (resize_nodes s).length = true ∧
        (∀ c ∈ children, tree_opts.min_samples_in_leaf ≤ c.data_indices.length) ∧
        s'.the_nodes = (resize_nodes s).set front.node_index (k_ary_node.internal split) ∧
        s'.tmp_nodes = rest ++ children)) := by
  obtain ⟨np, s2, -, h2, x, hx, hn⟩ := fit_iteration_ok h
  obtain ⟨front', rest', hq', hcase⟩ := split_or_leaf_ok h2
  have hq'' : front' :: rest' = front :: rest := by rw [← hq', ← hq]
  cases hq''
  rcases hcase with ⟨-, hlt, hs2⟩ | ⟨hw, s1, h1, hc⟩
  · refine ⟨hlt, Or.inl ⟨?_, ?_⟩⟩
    · rw [hn, hs2]
    · rw [hs2] at hx
      simp only at hx
      rw [hq] at hx
      simp only [List.cons.injEq] at hx
      exact hx.2.symm
  · obtain ⟨node, fs, hnode, hn1, hq1⟩ := split_attempt_ok h1
    have hlt : front.node_index < (resize_nodes s).length := (List.getElem?_eq_some.mp hnode).1
    simp only at hn1 hq1 hlt hw
    obtain ⟨children, hch, hidx⟩ := hs node front data fs (resize_nodes s).length s.tmp_nodes
    have hklen : children.length = k := by
      have := congrArg List.length hidx
      simpa using this
    rw [hch] at hq1
    refine ⟨hlt, ?_⟩
    rcases check_split_ok hc with ⟨hleg, hs2⟩ | ⟨-, hroll⟩
    · right
      have hnp : np = true := by
        unfold splitworthy at hw
        simp only [Bool.and_eq_true] at hw
        exact hw.1.2
      refine ⟨(make_internal_node node front data fs (resize_nodes s).length s.tmp_nodes).1,
        children, node, fs, ?_, hidx, ?_, ?_, ?_, ?_⟩
      · rw [← hq]; exact hch
      · subst hnp; exact hw
      · intro c hcm
        have hmem := children_mem_legality_window k s.tmp_nodes children hklen c hcm
        unfold illegal_split at hleg
        rw [← hq1] at hmem
        have := (List.any_eq_false.mp hleg) c hmem
        simpa using this
      · rw [hn, hs2, hn1]
      · rw [hs2, hq1, hq] at hx
        simp only [List.cons_append, List.cons.injEq] at hx
        exact hx.2.symm
    · left
      obtain ⟨f2, r2, htake, -, hs2⟩ := rollback_ok hroll
      have htake' : s1.tmp_nodes.take (s1.tmp_nodes.length - k) = front :: rest := by
        rw [hq1, hq]
        have : ((front :: rest) ++ children).length - k = (front :: rest).length := by
          simp only [List.length_append]; omega
        rw [this, List.take_left]
      rw [htake'] at htake
      cases htake
      constructor
      · rw [hn, hs2]
        simp only
        rw [hn1, List.set_set]
      · rw [hs2] at hx
        simp only [List.cons.injEq] at hx
        exact hx.2.symm

end passes

section shape
variable {S RNG : Type}

theorem index_sub_le (a b : Nat) (h : b ≤ a) : index_sub a b ≤ a - b := by
  unfold index_sub index_modulus
  omega

theorem fit_ok {k : Nat} {make_internal_node : split_strategy S} {shuffle : shuffle_fn RNG}
    {fuel : Nat} {the_nodes : List (k_ary_node S)} {data : data_container}
    {tree_opts : tree_options} {rng : RNG} {s : fit_state S RNG}
    (h : fit k make_internal_node shuffle fuel the_nodes data tree_opts rng = Except.ok s) :
    fit_run k make_internal_node shuffle data tree_opts fuel (fit_init the_nodes data rng) =
      Except.ok s ∧ s.tmp_nodes = [] := by
  unfold fit at h
  split at h
  · cases h
  · next s' hs' =>
    split at h
    · next hq =>
      cases h
      exact ⟨hs', hq⟩
    · cases h

theorem queue_shape_init (data : data_container) (rng : RNG) :
    queue_shape 0 (fit_init ([] : List (k_ary_node S)) data rng) :=
  ⟨rfl, Nat.le_refl _, by simp [fit_init]⟩

theorem queue_shape_back {c : Nat} {s : fit_state S RNG} (hsh : queue_shape c s)
    (hne : s.tmp_nodes ≠ []) :
    ∃ back, s.tmp_nodes.getLast? = some back ∧
      back.node_index + 1 = c + s.tmp_nodes.length := by
  have hpos : 0 < s.tmp_nodes.length := List.length_pos.mpr hne
  have h1 := congrArg List.getLast? hsh.indices
  rw [List.getLast?_map, List.getLast?_eq_getElem? (List.range' _ _), List.length_range',
    List.getElem?_range' _ _ (by omega)] at h1
  cases hb : s.tmp_nodes.getLast? with
  | none => rw [hb] at h1; simp at h1
  | some back =>
    rw [hb] at h1
    simp only [Option.map_some', Option.some.injEq] at h1
    exact ⟨back, rfl, by omega⟩

theorem resize_nodes_of_shape {c : Nat} {s : fit_state S RNG} (hsh : queue_shape c s)
    (hne : s.tmp_nodes ≠ []) :
    resize_nodes s = s.the_nodes ++
      List.replicate (c + s.tmp_nodes.length - s.the_nodes.length) k_ary_node.unset := by
  obtain ⟨back, hb, hidx⟩ := queue_shape_back hsh hne
  have hup := hsh.upper
  unfold resize_nodes
  rw [hb]
  simp only
  split
  · next hge =>
    unfold resize
    rw [List.take_of_length_le (by omega), hidx]
  · next hlt =>
    have : c + s.tmp_nodes.length - s.the_nodes.length = 0 := by omega
    rw [this]
    simp

theorem resize_nodes_length_of_shape {c : Nat} {s : fit_state S RNG} (hsh : queue_shape c s)
    (hne : s.tmp_nodes ≠ []) :
    (resize_nodes s).length = c + s.tmp_nodes.length := by
  have hup := hsh.upper
  rw [resize_nodes_of_shape hsh hne, List.length_append, List.length_replicate]
  omega

theorem resize_nodes_getElem?_of_lt {c : Nat} {s : fit_state S RNG} (hsh : queue_shape c s)
    (hne : s.tmp_nodes ≠ []) (i : Nat) (hi : i < s.the_nodes.length) :
    (resize_nodes s)[i]? = s.the_nodes[i]? := by
  rw [resize_nodes_of_shape hsh hne, List.getElem?_append_left hi]

/-- One pass of the loop keeps the shape of the queue: the descriptor consumed by the pass
after `c` earlier ones has node index `c`, and the node array has one slot for each descriptor
consumed or queued when the descriptor is finalized. -/
theorem queue_shape_step {k : Nat} {make_internal_node : split_strategy S}
    {shuffle : shuffle_fn RNG} {data : data_container} {tree_opts : tree_options}
    {c : Nat} {s s' : fit_state S RNG} {front : temporary_node} {rest : List temporary_node}
    (hs : appends_consecutive k make_internal_node) (hsh : queue_shape c s)
    (hq : s.tmp_nodes = front :: rest)
    (h : fit_iteration k make_internal_node shuffle data tree_opts s = Except.ok s') :
    front.node_index = c ∧ (resize_nodes s).length = c + (rest.length + 1) ∧
      rest.map temporary_node.node_index = List.range' (c + 1) rest.length ∧
      queue_shape (c + 1) s' := by
  have hne : s.tmp_nodes ≠ [] := by rw [hq]; simp
  have hlen := resize_nodes_length_of_shape hsh hne
  have hidx := hsh.indices
  rw [hq] at hidx hlen
  simp only [List.map_cons, List.length_cons, List.range'_succ, List.cons.injEq] at hidx hlen
  obtain ⟨hfront, hrest⟩ := hidx
  refine ⟨hfront, hlen, hrest, ?_⟩
  obtain ⟨-, hcase⟩ := fit_iteration_cases hs hq h
  rcases hcase with ⟨hn, ht⟩ | ⟨split, children, node, fs, -, hch, -, -, hn, ht⟩
  · refine ⟨?_, ?_, ?_⟩
    · rw [ht]; exact hrest
    · rw [hn, List.length_set, hlen]; omega
    · rw [hn, ht, List.length_set, hlen]; omega
  · have hklen : children.length = k := by
      have := congrArg List.length hch
      simpa using this
    refine ⟨?_, ?_, ?_⟩
    · rw [ht, List.map_append, hrest, hch, hlen, List.length_append, hklen]
      have := List.range'_append (c + 1) rest.length k 1
      rw [Nat.add_comm k rest.length] at this
      rw [← this]
      congr 2
      omega
    · rw [hn, List.length_set, hlen]; omega
    · rw [hn, ht, List.length_set, hlen, List.length_append]; omega

/-- An invariant that may mention the number of descriptors consumed so far holds in every
state that `fit_run` returns. -/
theorem fit_run_counted_invariant (k : Nat) (make_internal_node : split_strategy S)
    (shuffle : shuffle_fn RNG) (data : data_container) (tree_opts : tree_options)
    (P : Nat → fit_state S RNG → Prop)
    (hstep : ∀ c s s', P c s → s.tmp_nodes ≠ [] →
      fit_iteration k make_internal_node shuffle data tree_opts s = Except.ok s' → P (c + 1) s')
    (n c : Nat) (s0 s : fit_state S RNG) (h0 : P c s0)
    (h : fit_run k make_internal_node shuffle data tree_opts n s0 = Except.ok s) :
    ∃ c', P c' s :=
  fit_run_invariant k make_internal_node shuffle data tree_opts (fun s => ∃ c, P c s)
    (fun s s' ⟨c, hc⟩ hne hit => ⟨c + 1, hstep c s s' hc hne hit⟩) n s0 s ⟨c, h0⟩ h

theorem halving_split_appends_consecutive : appends_consecutive 2 halving_split :=
  fun _ _ _ _ _ _ => ⟨_, rfl, rfl⟩

theorem halving_split_appends_one_level_deeper : appends_one_level_deeper halving_split := by
  intro _ front _ _ next_index _
  refine ⟨_, rfl, ?_⟩
  intro c hc
  simp only [List.mem_cons, List.mem_singleton, List.not_mem_nil, or_false] at hc
  rcases hc with rfl | rfl <;> rfl

theorem halving_split_appends_partition : appends_partition halving_split := by
  intro _ front _ _ next_index _
  refine ⟨_, rfl, ?_⟩
  simp

end shape

section budget
variable {S RNG : Type}

/-- One pass of the loop keeps the number of descriptors consumed or queued within the node
budget. -/
theorem budget_step {k : Nat} {make_internal_node : split_strategy S}
    {shuffle : shuffle_fn RNG} {data : data_container} {tree_opts : tree_options}
    {c : Nat} {s s' : fit_state S RNG}
    (hmax : k ≤ tree_opts.max_num_nodes)
    (hs : appends_consecutive k make_internal_node) (hsh : queue_shape c s)
    (hb : c + s.tmp_nodes.length ≤ tree_opts.max_num_nodes)
    (hne : s.tmp_nodes ≠ [])
    (hit : fit_iteration k make_internal_node shuffle data tree_opts s = Except.ok s') :
    queue_shape (c + 1) s' ∧ c + 1 + s'.tmp_nodes.length ≤ tree_opts.max_num_nodes := by
  obtain ⟨front, rest, hq⟩ := List.exists_cons_of_ne_nil hne
  obtain ⟨-, hlen, -, hsh'⟩ := queue_shape_step hs hsh hq hit
  refine ⟨hsh', ?_⟩
  obtain ⟨-, hcase⟩ := fit_iteration_cases hs hq hit
  rw [hq] at hb
  simp only [List.length_cons] at hb
  rcases hcase with ⟨-, ht⟩ | ⟨split, children, node, fs, -, hch, hw, -, -, ht⟩
  · rw [ht]; omega
  · have hklen : children.length = k := by
      have := congrArg List.length hch
      simpa using this
    unfold splitworthy at hw
    simp only [Bool.and_eq_true, decide_eq_true_eq] at hw
    have h1 := hw.2
    have h2 := index_sub_le _ _ hmax
    rw [ht, List.length_append, hklen]
    omega

/-- C4: with a branching factor `k ≥ 1`, a node budget `max_num_nodes ≥ k` and a split strategy
that appends exactly `k` descriptors with the node indices `next_index, ..., next_index + k - 1`,
a call of `fit` on an empty node array that leaves the loop with an empty queue leaves a node
array of at most `max_num_nodes` nodes. -/
theorem node_budget_respected (k : Nat) (make_internal_node : split_strategy S)
    (shuffle : shuffle_fn RNG) (fuel : Nat) (data : data_container) (tree_opts : tree_options)
    (rng : RNG) (s : fit_state S RNG)
    (hk : 1 ≤ k) (hmax : k ≤ tree_opts.max_num_nodes)
    (hs : appends_consecutive k make_internal_node)
    (h : fit k make_internal_node shuffle fuel [] data tree_opts rng = Except.ok s) :
    s.tmp_nodes = [] ∧ s.the_nodes.length ≤ tree_opts.max_num_nodes := by
  obtain ⟨hrun, hempty⟩ := fit_ok h
  refine ⟨hempty, ?_⟩
  obtain ⟨c, hsh, hb⟩ := fit_run_counted_invariant k make_internal_node shuffle data tree_opts
    (fun c s => queue_shape c s ∧ c + s.tmp_nodes.length ≤ tree_opts.max_num_nodes)
    (fun c s s' ⟨hsh, hb⟩ hne hit => budget_step hmax hs hsh hb hne hit)
    fuel 0 _ s ⟨queue_shape_init data rng, by simp [fit_init]; omega⟩ hrun
  have := hsh.upper
  omega

theorem node_budget_respected_witness :
    fit 2 halving_split keep_order 10 [] (alternating 8) { example_opts with max_num_nodes := 6 }
        () = Except.ok budget_example_result ∧
    (budget_example_result.tmp_nodes = [] ∧ budget_example_result.the_nodes.length ≤ 6) :=
  ⟨rfl, node_budget_respected 2 halving_split keep_order 10 (alternating 8)
    { example_opts with max_num_nodes := 6 } () budget_example_result (by decide) (by decide)
    halving_split_appends_consecutive rfl⟩

end budget

section depth
variable {S RNG : Type}

theorem split_attempt_levels {make_internal_node : split_strategy S} {shuffle : shuffle_fn RNG}
    {data : data_container} {tree_opts : tree_options} {k : Nat} {front : temporary_node}
    {not_pure : Bool} {s s1 : fit_state S RNG}
    (hd : appends_one_level_deeper make_internal_node)
    (hinv : ∀ t ∈ s.tmp_nodes, t.node_level ≤ tree_opts.max_depth)
    (hw : splitworthy k tree_opts front not_pure s.the_nodes.length = true)
    (h1 : split_attempt make_internal_node shuffle data tree_opts front s = Except.ok s1) :
    ∀ t ∈ s1.tmp_nodes, t.node_level ≤ tree_opts.max_depth := by
  obtain ⟨node, fs, -, -, hq1⟩ := split_attempt_ok h1
  obtain ⟨children, hch, hlev⟩ := hd node front data fs s.the_nodes.length s.tmp_nodes
  unfold splitworthy at hw
  simp only [Bool.and_eq_true, decide_eq_true_eq] at hw
  have hfront := hw.1.1.1
  intro t ht
  rw [hq1, hch, List.mem_append] at ht
  rcases ht with ht | ht
  · exact hinv t ht
  · rw [hlev t ht]; omega

theorem fit_iteration_levels {k : Nat} {make_internal_node : split_strategy S}
    {shuffle : shuffle_fn RNG} {data : data_container} {tree_opts : tree_options}
    {s s' : fit_state S RNG}
    (hd : appends_one_level_deeper make_internal_node)
    (hinv : ∀ t ∈ s.tmp_nodes, t.node_level ≤ tree_opts.max_depth)
    (h : fit_iteration k make_internal_node shuffle data tree_opts s = Except.ok s') :
    ∀ t ∈ s'.tmp_nodes, t.node_level ≤ tree_opts.max_depth := by
  obtain ⟨np, s2, -, h2, x, hx, -⟩ := fit_iteration_ok h
  obtain ⟨front, rest, -, hcase⟩ := split_or_leaf_ok h2
  have h2lev : ∀ t ∈ s2.tmp_nodes, t.node_level ≤ tree_opts.max_depth := by
    rcases hcase with ⟨-, -, hs2⟩ | ⟨hw, s1, h1, hc⟩
    · rw [hs2]; exact hinv
    · have h1lev := split_attempt_levels hd (s := { s with the_nodes := resize_nodes s })
        hinv hw h1
      rcases check_split_ok hc with ⟨-, hs2⟩ | ⟨-, hroll⟩
      · rw [hs2]; exact h1lev
      · obtain ⟨f2, r2, htake, -, hs2⟩ := rollback_ok hroll
        intro t ht
        rw [hs2] at ht
        simp only at ht
        rw [← htake] at ht
        exact h1lev t (List.mem_of_mem_take ht)
  intro t ht
  exact h2lev t (by rw [hx]; exact List.mem_cons_of_mem _ ht)

/-- C5: when the split strategy gives each descriptor it appends the level of the split
descriptor plus one, then in every state reached by the loop of `fit` every queued descriptor
has a level of at most `max_depth`, and so has every descriptor in the queue that a split
attempt leaves behind, before the legality check may remove some of them again; the root
descriptor has level 0. -/
theorem depth_bounded (k : Nat) (make_internal_node : split_strategy S)
    (shuffle : shuffle_fn RNG) (data : data_container) (tree_opts : tree_options)
    (the_nodes : List (k_ary_node S)) (rng : RNG) (n : Nat) (s : fit_state S RNG)
    (hd : appends_one_level_deeper make_internal_node)
    (h : fit_run k make_internal_node shuffle data tree_opts n (fit_init the_nodes data rng) =
      Except.ok s) :
    (∀ t ∈ (fit_init the_nodes data rng).tmp_nodes, t.node_level = 0) ∧
    (∀ t ∈ s.tmp_nodes, t.node_level ≤ tree_opts.max_depth) ∧
    (∀ front rest not_pure s1, s.tmp_nodes = front :: rest →
      splitworthy k tree_opts front not_pure (resize_nodes s).length = true →
      split_attempt make_internal_node shuffle data tree_opts front
        { s with the_nodes := resize_nodes s } = Except.ok s1 →
      ∀ t ∈ s1.tmp_nodes, t.node_level ≤ tree_opts.max_depth) := by
  have hroot : ∀ t ∈ (fit_init the_nodes data rng).tmp_nodes, t.node_level = 0 := by
    intro t ht
    simp only [fit_init, List.mem_singleton] at ht
    rw [ht]
  have hinv : ∀ t ∈ s.tmp_nodes, t.node_level ≤ tree_opts.max_depth :=
    fit_run_invariant k make_internal_node shuffle data tree_opts
      (fun s => ∀ t ∈ s.tmp_nodes, t.node_level ≤ tree_opts.max_depth)
      (fun s s' hs _ hit => fit_iteration_levels hd hs hit) n _ s
      (fun t ht => by rw [hroot t ht]; exact Nat.zero_le _) h
  refine ⟨hroot, hinv, ?_⟩
  intro front rest not_pure s1 _ hw h1
  exact split_attempt_levels hd (s := { s with the_nodes := resize_nodes s }) hinv hw h1

theorem depth_bounded_witness :
    fit_run 2 halving_split keep_order (alternating 4) example_opts 1
        (fit_init [] (alternating 4) ()) = Except.ok example_state_after_root ∧
    ((∀ t ∈ (fit_init ([] : List (k_ary_node (List Nat))) (alternating 4) ()).tmp_nodes,
        t.node_level = 0) ∧
     (∀ t ∈ example_state_after_root.tmp_nodes, t.node_level ≤ example_opts.max_depth) ∧
     (∀ front rest not_pure s1,
        example_state_after_root.tmp_nodes = front :: rest →
        splitworthy 2 example_opts front not_pure
          (resize_nodes example_state_after_root).length = true →
        split_attempt halving_split keep_order (alternating 4) example_opts front
          { example_state_after_root with the_nodes := resize_nodes example_state_after_root } =
          Except.ok s1 →
        ∀ t ∈ s1.tmp_nodes, t.node_level ≤ example_opts.max_depth)) :=
  ⟨rfl, depth_bounded 2 halving_split keep_order (alternating 4) example_opts [] () 1
    example_state_after_root halving_split_appends_one_level_deeper rfl⟩

end depth

section gaps
variable {S RNG : Type}

theorem fit_run_succ_of_iteration (k : Nat) (make_internal_node : split_strategy S)
    (shuffle : shuffle_fn RNG) (data : data_container) (tree_opts : tree_options)
    (n : Nat) (s s1 : fit_state S RNG) (hne : s.tmp_nodes ≠ [])
    (h : fit_iteration k make_internal_node shuffle data tree_opts s = Except.ok s1) :
    fit_run k make_internal_node shuffle data tree_opts (n + 1) s =
      fit_run k make_internal_node shuffle data tree_opts n s1 := by
  obtain ⟨front, rest, hq⟩ := List.exists_cons_of_ne_nil hne
  conv => lhs; unfold fit_run
  rw [hq]
  simp only [h]

theorem fit_run_of_empty (k : Nat) (make_internal_node : split_strategy S)
    (shuffle : shuffle_fn RNG) (data : data_container) (tree_opts : tree_options)
    (n : Nat) (s : fit_state S RNG) (he : s.tmp_nodes = []) :
    fit_run k make_internal_node shuffle data tree_opts n s = Except.ok s := by
  cases n with
  | zero => rfl
  | succ n =>
    unfold fit_run
    rw [he]

/-- What a pass of the loop leaves in the node array: the slot of the consumed descriptor holds
a leaf with its instance set or an internal node, and the slots before it are untouched. -/
theorem fit_iteration_slots {k : Nat} {make_internal_node : split_strategy S}
    {shuffle : shuffle_fn RNG} {data : data_container} {tree_opts : tree_options}
    {c : Nat} {s s' : fit_state S RNG} {front : temporary_node} {rest : List temporary_node}
    (hs : appends_consecutive k make_internal_node) (hsh : queue_shape c s)
    (hq : s.tmp_nodes = front :: rest)
    (h : fit_iteration k make_internal_node shuffle data tree_opts s = Except.ok s') :
    (s'.the_nodes[c]? = some (k_ary_node.leaf front.data_indices) ∨
      ∃ split, s'.the_nodes[c]? = some (k_ary_node.internal split)) ∧
    ∀ i, i < c → s'.the_nodes[i]? = s.the_nodes[i]? := by
  have hne : s.tmp_nodes ≠ [] := by rw [hq]; simp
  obtain ⟨hfront, -, -, -⟩ := queue_shape_step hs hsh hq h
  obtain ⟨hlt, hcase⟩ := fit_iteration_cases hs hq h
  rw [hfront] at hlt hcase
  have hlow := hsh.lower
  have hkeep : ∀ (v : k_ary_node S) (i : Nat), i < c →
      ((resize_nodes s).set c v)[i]? = s.the_nodes[i]? := by
    intro v i hi
    rw [List.getElem?_set, if_neg (by omega)]
    exact resize_nodes_getElem?_of_lt hsh hne i (by omega)
  rcases hcase with ⟨hn, -⟩ | ⟨split, children, node, fs, -, -, -, -, hn, -⟩
  · constructor
    · left
      rw [hn, List.getElem?_set, if_pos rfl, if_pos hlt]
    · intro i hi
      rw [hn]
      exact hkeep _ i hi
  · constructor
    · right
      exact ⟨split, by rw [hn, List.getElem?_set, if_pos rfl, if_pos hlt]⟩
    · intro i hi
      rw [hn]
      exact hkeep _ i hi

/-- The passes of a completed run, counted from a state in which `c` descriptors have been
consumed: there is one pass for each slot from `c` on, the pass for slot `i` consumes the
descriptor with node index `i` and fills that slot for good. -/
theorem fit_run_consumes_in_order (k : Nat) (make_internal_node : split_strategy S)
    (shuffle : shuffle_fn RNG) (data : data_container) (tree_opts : tree_options)
    (hs : appends_consecutive k make_internal_node) :
    ∀ (n c : Nat) (s0 s : fit_state S RNG), queue_shape c s0 →
      fit_run k make_internal_node shuffle data tree_opts n s0 = Except.ok s →
      s.tmp_nodes = [] →
      c ≤ s.the_nodes.length ∧
      fit_run k make_internal_node shuffle data tree_opts (s.the_nodes.length - c) s0 =
        Except.ok s ∧
      (∀ i, c ≤ i → i < s.the_nodes.length → ∃ si front rest,
        fit_run k make_internal_node shuffle data tree_opts (i - c) s0 = Except.ok si ∧
        si.tmp_nodes = front :: rest ∧ front.node_index = i ∧
        (s.the_nodes[i]? = some (k_ary_node.leaf front.data_indices) ∨
          ∃ split, s.the_nodes[i]? = some (k_ary_node.internal split))) ∧
      (∀ i, i < c → s.the_nodes[i]? = s0.the_nodes[i]?)
  | 0, c, s0, s, hsh, h, he => by
    unfold fit_run at h
    cases h
    have h1 := hsh.lower
    have h2 := hsh.upper
    rw [he] at h2
    simp only [List.length_nil] at h2
    refine ⟨h1, ?_, ?_, fun _ _ => rfl⟩
    · exact fit_run_of_empty _ _ _ _ _ _ _ he
    · intro i hi1 hi2
      omega
  | n + 1, c, s0, s, hsh, h, he => by
    by_cases hq0 : s0.tmp_nodes = []
    · rw [fit_run_of_empty _ _ _ _ _ _ _ hq0] at h
      cases h
      have h1 := hsh.lower
      have h2 := hsh.upper
      rw [he] at h2
      simp only [List.length_nil] at h2
      refine ⟨h1, ?_, ?_, fun _ _ => rfl⟩
      · exact fit_run_of_empty _ _ _ _ _ _ _ he
      · intro i hi1 hi2
        omega
    · obtain ⟨front, rest, hq⟩ := List.exists_cons_of_ne_nil hq0
      cases hit : fit_iteration k make_internal_node shuffle data tree_opts s0 with
      | error e =>
        unfold fit_run at h
        rw [hq] at h
        simp only [hit] at h
        cases h
      | ok s1 =>
        rw [fit_run_succ_of_iteration _ _ _ _ _ n s0 s1 hq0 hit] at h
        obtain ⟨hfront, -, -, hsh1⟩ := queue_shape_step hs hsh hq hit
        obtain ⟨hslot, hkeep⟩ := fit_iteration_slots hs hsh hq hit
        obtain ⟨hc1, hrun1, hpass1, hkeep1⟩ :=
          fit_run_consumes_in_order k make_internal_node shuffle data tree_opts hs
            n (c + 1) s1 s hsh1 h he
        refine ⟨by omega, ?_, ?_, ?_⟩
        · have : s.the_nodes.length - c = (s.the_nodes.length - (c + 1)) + 1 := by omega
          rw [this, fit_run_succ_of_iteration _ _ _ _ _ _ s0 s1 hq0 hit]
          exact hrun1
        · intro i hi1 hi2
          by_cases hic : i = c
          · subst hic
            refine ⟨s0, front, rest, ?_, hq, hfront, ?_⟩
            · rw [Nat.sub_self]; rfl
            · rw [hkeep1 i (by omega)]
              exact hslot
          · obtain ⟨si, f, r, hrun, hsi, hf, hslot'⟩ := hpass1 i (by omega) hi2
            refine ⟨si, f, r, ?_, hsi, hf, hslot'⟩
            have : i - c = (i - (c + 1)) + 1 := by omega
            rw [this, fit_run_succ_of_iteration _ _ _ _ _ _ s0 s1 hq0 hit]
            exact hrun
        · intro i hi
          rw [hkeep1 i (by omega)]
          exact hkeep i hi

/-- C7: for `fit` started on an empty node array with a split strategy that appends exactly `k`
descriptors with the node indices `next_index, ..., next_index + k - 1`: when the queue is
empty, the loop has made exactly as many passes as the node array has slots, and for every
index `i` below the size of the node array, pass number `i` consumed a descriptor with node
index `i` and the slot `i` holds a leaf with the instance set of that descriptor or an internal
node. So every index was finalized by exactly one consumed descriptor and no slot is left
default constructed. -/
theorem no_gaps_in_node_array (k : Nat) (make_internal_node : split_strategy S)
    (shuffle : shuffle_fn RNG) (fuel : Nat) (data : data_container) (tree_opts : tree_options)
    (rng : RNG) (s : fit_state S RNG)
    (hs : appends_consecutive k make_internal_node)
    (h : fit k make_internal_node shuffle fuel [] data tree_opts rng = Except.ok s) :
    s.tmp_nodes = [] ∧
    fit_run k make_internal_node shuffle data tree_opts s.the_nodes.length
      (fit_init [] data rng) = Except.ok s ∧
    ∀ i, i < s.the_nodes.length → ∃ si front rest,
      fit_run k make_internal_node shuffle data tree_opts i (fit_init [] data rng) =
        Except.ok si ∧
      si.tmp_nodes = front :: rest ∧ front.node_index = i ∧
      (s.the_nodes[i]? = some (k_ary_node.leaf front.data_indices) ∨
        ∃ split, s.the_nodes[i]? = some (k_ary_node.internal split)) := by
  obtain ⟨hrun, hempty⟩ := fit_ok h
  obtain ⟨-, hrun', hpass, -⟩ := fit_run_consumes_in_order k make_internal_node shuffle data
    tree_opts hs fuel 0 _ s (queue_shape_init data rng) hrun hempty
  refine ⟨hempty, hrun', ?_⟩
  intro i hi
  exact hpass i (Nat.zero_le _) hi

theorem no_gaps_in_node_array_witness :
    fit 2 halving_split keep_order 10 [] (alternating 4) example_opts () =
      Except.ok example_result ∧
    (example_result.tmp_nodes = [] ∧
     fit_run 2 halving_split keep_order (alternating 4) example_opts
        example_result.the_nodes.length (fit_init [] (alternating 4) ()) =
      Except.ok example_result ∧
     ∀ i, i < example_result.the_nodes.length → ∃ si front rest,
      fit_run 2 halving_split keep_order (alternating 4) example_opts i
        (fit_init [] (alternating 4) ()) = Except.ok si ∧
      si.tmp_nodes = front :: rest ∧ front.node_index = i ∧
      (example_result.the_nodes[i]? = some (k_ary_node.leaf front.data_indices) ∨
        ∃ split, example_result.the_nodes[i]? = some (k_ary_node.internal split))) :=
  ⟨rfl, no_gaps_in_node_array 2 halving_split keep_order 10 (alternating 4) example_opts ()
    example_result halving_split_appends_consecutive rfl⟩

end gaps

section partition
variable {S RNG : Type}

theorem leaf_instances_append (a b : List (k_ary_node S)) :
    leaf_instances (a ++ b) = leaf_instances a ++ leaf_instances b := by
  induction a with
  | nil => rfl
  | cons x a ih =>
    cases x with
    | unset => simpa [leaf_instances] using ih
    | leaf d => simp [leaf_instances, ih]
    | internal sp => simpa [leaf_instances] using ih

theorem leaf_instances_replicate_unset (n : Nat) :
    leaf_instances (List.replicate n (k_ary_node.unset : k_ary_node S)) = [] := by
  induction n with
  | zero => rfl
  | succ n ih => simpa [List.replicate_succ, leaf_instances] using ih

theorem leaf_instances_set_leaf (d : List Nat) :
    ∀ (l : List (k_ary_node S)) (i : Nat), l[i]? = some k_ary_node.unset →
      List.Perm (leaf_instances (l.set i (k_ary_node.leaf d))) (d ++ leaf_instances l)
  | [], i, h => by simp at h
  | x :: l, 0, h => by
    simp only [List.getElem?_cons_zero, Option.some.injEq] at h
    subst h
    simp [leaf_instances]
  | x :: l, i + 1, h => by
    simp only [List.getElem?_cons_succ] at h
    have ih := leaf_instances_set_leaf d l i h
    cases x with
    | unset => simpa [leaf_instances] using ih
    | leaf d' =>
      simp only [List.set_cons_succ, leaf_instances]
      exact (List.Perm.append_left d' ih).trans
        ((List.perm_append_comm_assoc d' d (leaf_instances l)))
    | internal sp => simpa [leaf_instances] using ih

theorem leaf_instances_set_internal (sp : S) :
    ∀ (l : List (k_ary_node S)) (i : Nat), l[i]? = some k_ary_node.unset →
      leaf_instances (l.set i (k_ary_node.internal sp)) = leaf_instances l
  | [], i, h => by simp at h
  | x :: l, 0, h => by
    simp only [List.getElem?_cons_zero, Option.some.injEq] at h
    subst h
    simp [leaf_instances]
  | x :: l, i + 1, h => by
    simp only [List.getElem?_cons_succ] at h
    have ih := leaf_instances_set_internal sp l i h
    cases x with
    | unset => simpa [leaf_instances] using ih
    | leaf d' => simp [leaf_instances, ih]
    | internal sp' => simpa [leaf_instances] using ih

/-- The account of the instances that `fit` keeps while it runs on `n` data points: the shape
of the queue, slots of descriptors not yet consumed are default constructed, and the instances
of the leaves together with the instances of the queued descriptors are a rearrangement of
`0, ..., n - 1`. -/
theorem instances_accounted_step {k : Nat} {make_internal_node : split_strategy S}
    {shuffle : shuffle_fn RNG} {data : data_container} {tree_opts : tree_options}
    {c n : Nat} {s s' : fit_state S RNG}
    (hs : appends_consecutive k make_internal_node) (hp : appends_partition make_internal_node)
    (hsh : queue_shape c s)
    (hunset : ∀ i node, c ≤ i → s.the_nodes[i]? = some node → node = k_ary_node.unset)
    (hperm : List.Perm (leaf_instances s.the_nodes ++ pending_instances s.tmp_nodes)
      (List.range n))
    (hne : s.tmp_nodes ≠ [])
    (h : fit_iteration k make_internal_node shuffle data tree_opts s = Except.ok s') :
    queue_shape (c + 1) s' ∧
    (∀ i node, c + 1 ≤ i → s'.the_nodes[i]? = some node → node = k_ary_node.unset) ∧
    List.Perm (leaf_instances s'.the_nodes ++ pending_instances s'.tmp_nodes) (List.range n) := by
  obtain ⟨front, rest, hq⟩ := List.exists_cons_of_ne_nil hne
  obtain ⟨hfront, hlen, -, hsh'⟩ := queue_shape_step hs hsh hq h
  obtain ⟨hlt, hcase⟩ := fit_iteration_cases hs hq h
  rw [hfront] at hlt hcase
  have hres := resize_nodes_of_shape hsh hne
  have hlow := hsh.lower
  have hNunset : ∀ i node, c ≤ i → (resize_nodes s)[i]? = some node →
      node = k_ary_node.unset := by
    intro i node hi hnode
    rw [hres, List.getElem?_append] at hnode
    split at hnode
    · exact hunset i node hi hnode
    · rw [List.getElem?_replicate] at hnode
      split at hnode
      · cases hnode; rfl
      · cases hnode
  have hNc : (resize_nodes s)[c]? = some k_ary_node.unset := by
    rw [List.getElem?_eq_getElem hlt]
    rw [hNunset c _ (Nat.le_refl _) (List.getElem?_eq_getElem hlt)]
  have hNleaf : leaf_instances (resize_nodes s) = leaf_instances s.the_nodes := by
    rw [hres, leaf_instances_append, leaf_instances_replicate_unset, List.append_nil]
  have hkeep : ∀ (v : k_ary_node S) (i : Nat) (node : k_ary_node S), c + 1 ≤ i →
      ((resize_nodes s).set c v)[i]? = some node → node = k_ary_node.unset := by
    intro v i node hi hnode
    rw [List.getElem?_set, if_neg (by omega)] at hnode
    exact hNunset i node (by omega) hnode
  rw [hq] at hperm
  simp only [pending_instances, List.map_cons, List.flatten_cons] at hperm
  refine ⟨hsh', ?_, ?_⟩
  · rcases hcase with ⟨hn, -⟩ | ⟨split, children, node, fs, -, -, -, -, hn, -⟩
    · intro i node hi hnode
      rw [hn] at hnode
      exact hkeep _ i node hi hnode
    · intro i node hi hnode
      rw [hn] at hnode
      exact hkeep _ i node hi hnode
  · rcases hcase with ⟨hn, ht⟩ | ⟨split, children, node, fs, hout, -, -, -, hn, ht⟩
    · rw [hn, ht]
      refine List.Perm.trans ?_ hperm
      refine ((leaf_instances_set_leaf front.data_indices _ c hNc).append_right _).trans ?_
      rw [hNleaf, pending_instances, List.append_assoc]
      exact List.perm_append_comm_assoc _ _ _
    · obtain ⟨children', hout', hpart⟩ :=
        hp node front data fs (resize_nodes s).length (front :: rest)
      rw [hout] at hout'
      have hsame : children = children' := List.append_cancel_left hout'
      subst hsame
      rw [hn, ht, leaf_instances_set_internal split _ c hNc, hNleaf]
      refine List.Perm.trans ?_ hperm
      refine List.Perm.append_left _ ?_
      simp only [pending_instances, List.map_append, List.flatten_append]
      exact List.perm_append_comm.trans (List.Perm.append_right _ hpart)

/-- C8 as claimed fails: `halving_split` appends two descriptors whose instance sets partition
the instance set of the split descriptor, but started on the node array that an earlier call
with the same arguments has left, `fit` ends with a node array whose leaves hold the instances
`0, 1, 2, 3, 0, 1, 2, 3`: the leaves of the earlier tree are still in the slots 1 and 2, and
every instance index occurs in two leaves. -/
theorem every_instance_in_one_leaf_fails :
    appends_consecutive 2 halving_split ∧ appends_partition halving_split ∧
    fit 2 halving_split keep_order 10 example_result.the_nodes (alternating 4) example_opts () =
      Except.ok refit_result ∧
    leaf_instances refit_result.the_nodes = [0, 1, 2, 3, 0, 1, 2, 3] ∧
    ¬ every_instance_in_one_leaf 2 halving_split keep_order 10 example_result.the_nodes
      (alternating 4) example_opts () := by
  refine ⟨halving_split_appends_consecutive, halving_split_appends_partition, rfl, rfl, ?_⟩
  intro hone
  have h := hone refit_result rfl 0 (by decide)
  revert h
  decide

/-- C8, amended: for `fit` started on an empty node array on a data set with `n` data points,
with a split strategy that appends exactly `k` descriptors, numbered `next_index, ...`, whose
instance sets partition the instance set of the split descriptor: in every state reached by the
loop, the instances of the leaves finalized so far together with the instances of the queued
descriptors are a rearrangement of `0, ..., n - 1`; and when the queue is empty, every
instance index below `n` occurs exactly once in the leaves of the node array, and no other
index occurs in them. -/
theorem instances_partitioned (k : Nat) (make_internal_node : split_strategy S)
    (shuffle : shuffle_fn RNG) (data : data_container) (tree_opts : tree_options)
    (rng : RNG) (passes : Nat) (s : fit_state S RNG)
    (hs : appends_consecutive k make_internal_node) (hp : appends_partition make_internal_node)
    (h : fit_run k make_internal_node shuffle data tree_opts passes (fit_init [] data rng) =
      Except.ok s) :
    List.Perm (leaf_instances s.the_nodes ++ pending_instances s.tmp_nodes)
      (List.range data.num_data_points) ∧
    (s.tmp_nodes = [] →
      (∀ i, i < data.num_data_points → (leaf_instances s.the_nodes).count i = 1) ∧
      (∀ i ∈ leaf_instances s.the_nodes, i < data.num_data_points)) := by
  obtain ⟨c, -, -, hperm⟩ := fit_run_counted_invariant k make_internal_node shuffle data tree_opts
    (fun c s => queue_shape c s ∧
      (∀ i node, c ≤ i → s.the_nodes[i]? = some node → node = k_ary_node.unset) ∧
      List.Perm (leaf_instances s.the_nodes ++ pending_instances s.tmp_nodes)
        (List.range data.num_data_points))
    (fun c s s' ⟨hsh, hunset, hperm⟩ hne hit =>
      instances_accounted_step hs hp hsh hunset hperm hne hit)
    passes 0 _ s
    ⟨queue_shape_init data rng, by intro i node _ hnode; simp [fit_init] at hnode,
      by simp [fit_init, leaf_instances, pending_instances]⟩ h
  refine ⟨hperm, ?_⟩
  intro hempty
  rw [hempty] at hperm
  simp only [pending_instances, List.map_nil, List.flatten_nil, List.append_nil] at hperm
  constructor
  · intro i hi
    rw [hperm.count_eq i]
    exact List.count_eq_one_of_mem (List.nodup_range _) (List.mem_range.mpr hi)
  · intro i hi
    exact List.mem_range.mp (hperm.mem_iff.mp hi)

theorem instances_partitioned_witness :
    fit_run 2 halving_split keep_order (alternating 4) example_opts 3
        (fit_init [] (alternating 4) ()) = Except.ok example_result ∧
    (List.Perm (leaf_instances example_result.the_nodes ++
        pending_instances example_result.tmp_nodes)
      (List.range (alternating 4).num_data_points) ∧
     (example_result.tmp_nodes = [] →
      (∀ i, i < (alternating 4).num_data_points →
        (leaf_instances example_result.the_nodes).count i = 1) ∧
      (∀ i ∈ leaf_instances example_result.the_nodes, i < (alternating 4).num_data_points))) :=
  ⟨rfl, instances_partitioned 2 halving_split keep_order (alternating 4) example_opts () 3
    example_result halving_split_appends_consecutive halving_split_appends_partition rfl⟩

end partition

section leaf_size
variable {S RNG : Type}

theorem leaf_size_step {k : Nat} {make_internal_node : split_strategy S}
    {shuffle : shuffle_fn RNG} {data : data_container} {tree_opts : tree_options}
    {c : Nat} {s s' : fit_state S RNG}
    (hs : appends_consecutive k make_internal_node) (hsh : queue_shape c s)
    (hqueue : ∀ t ∈ s.tmp_nodes, t.node_index ≠ 0 →
      tree_opts.min_samples_in_leaf ≤ t.data_indices.length)
    (hleaf : ∀ i d, i ≠ 0 → s.the_nodes[i]? = some (k_ary_node.leaf d) →
      tree_opts.min_samples_in_leaf ≤ d.length)
    (hne : s.tmp_nodes ≠ [])
    (h : fit_iteration k make_internal_node shuffle data tree_opts s = Except.ok s') :
    queue_shape (c + 1) s' ∧
    (∀ t ∈ s'.tmp_nodes, t.node_index ≠ 0 →
      tree_opts.min_samples_in_leaf ≤ t.data_indices.length) ∧
    (∀ i d, i ≠ 0 → s'.the_nodes[i]? = some (k_ary_node.leaf d) →
      tree_opts.min_samples_in_leaf ≤ d.length) := by
  obtain ⟨front, rest, hq⟩ := List.exists_cons_of_ne_nil hne
  obtain ⟨hfront, -, -, hsh'⟩ := queue_shape_step hs hsh hq h
  obtain ⟨hlt, hcase⟩ := fit_iteration_cases hs hq h
  rw [hfront] at hlt hcase
  have hres := resize_nodes_of_shape hsh hne
  have hNleaf : ∀ i d, i ≠ 0 → (resize_nodes s)[i]? = some (k_ary_node.leaf d) →
      tree_opts.min_samples_in_leaf ≤ d.length := by
    intro i d hi hnode
    rw [hres, List.getElem?_append] at hnode
    split at hnode
    · exact hleaf i d hi hnode
    · rw [List.getElem?_replicate] at hnode
      split at hnode
      · cases hnode
      · cases hnode
  have hfrontmem : front ∈ s.tmp_nodes := by rw [hq]; exact List.mem_cons_self _ _
  have hrestmem : ∀ t ∈ rest, t ∈ s.tmp_nodes := by
    intro t ht; rw [hq]; exact List.mem_cons_of_mem _ ht
  refine ⟨hsh', ?_, ?_⟩
  · rcases hcase with ⟨-, ht⟩ | ⟨split, children, node, fs, -, -, -, hmin, -, ht⟩
    · intro t htm hidx
      rw [ht] at htm
      exact hqueue t (hrestmem t htm) hidx
    · intro t htm hidx
      rw [ht, List.mem_append] at htm
      rcases htm with htm | htm
      · exact hqueue t (hrestmem t htm) hidx
      · exact hmin t htm
  · rcases hcase with ⟨hn, -⟩ | ⟨split, children, node, fs, -, -, -, -, hn, -⟩
    · intro i d hi hnode
      rw [hn, List.getElem?_set] at hnode
      split at hnode
      · next hci =>
        simp only [Option.some.injEq, k_ary_node.leaf.injEq] at hnode
        rw [← hnode]
        exact hqueue front hfrontmem (by rw [hfront, hci]; exact hi)
      · exact hNleaf i d hi hnode
    · intro i d hi hnode
      rw [hn, List.getElem?_set] at hnode
      split at hnode
      · cases hnode
      · exact hNleaf i d hi hnode

/-- C6 as specified fails: on the two data points of `alternating 2`, with
`min_samples_to_split = 2` and `min_samples_in_leaf = 5`, the split of the root is rolled back
and the root becomes a leaf with 2 instances, which is fewer than `min_samples_in_leaf` and not
fewer than `min_samples_to_split`. -/
theorem specified_leaf_bound_fails :
    fit 2 halving_split keep_order 10 [] (alternating 2) large_leaf_opts () =
      Except.ok large_leaf_result ∧
    ¬ specified_leaf_bound 2 halving_split keep_order 10 (alternating 2) large_leaf_opts () := by
  refine ⟨rfl, ?_⟩
  intro hlaw
  have h := hlaw large_leaf_result rfl 0 [0, 1] rfl
  revert h
  decide

/-- C6, amended: for `fit` started on an empty node array with a split strategy that appends
exactly `k` descriptors with the node indices `next_index, ..., next_index + k - 1`, every leaf
of the completed tree has at least `min_samples_in_leaf` instances or is the root, node 0. -/
theorem leaves_large_or_root (k : Nat) (make_internal_node : split_strategy S)
    (shuffle : shuffle_fn RNG) (fuel : Nat) (data : data_container) (tree_opts : tree_options)
    (rng : RNG) (s : fit_state S RNG) (i : Nat) (data_indices : List Nat)
    (hs : appends_consecutive k make_internal_node)
    (h : fit k make_internal_node shuffle fuel [] data tree_opts rng = Except.ok s)
    (hleaf : s.the_nodes[i]? = some (k_ary_node.leaf data_indices)) :
    tree_opts.min_samples_in_leaf ≤ data_indices.length ∨ i = 0 := by
  obtain ⟨hrun, -⟩ := fit_ok h
  obtain ⟨c, -, -, hinv⟩ := fit_run_counted_invariant k make_internal_node shuffle data tree_opts
    (fun c s => queue_shape c s ∧
      (∀ t ∈ s.tmp_nodes, t.node_index ≠ 0 →
        tree_opts.min_samples_in_leaf ≤ t.data_indices.length) ∧
      (∀ i d, i ≠ 0 → s.the_nodes[i]? = some (k_ary_node.leaf d) →
        tree_opts.min_samples_in_leaf ≤ d.length))
    (fun c s s' ⟨hsh, hqueue, hleaf⟩ hne hit => leaf_size_step hs hsh hqueue hleaf hne hit)
    fuel 0 _ s
    ⟨queue_shape_init data rng,
      by intro t ht hidx; simp only [fit_init, List.mem_singleton] at ht; rw [ht] at hidx;
         exact absurd rfl hidx,
      by intro i d _ hnode; simp [fit_init] at hnode⟩ hrun
  by_cases hi : i = 0
  · exact Or.inr hi
  · exact Or.inl (hinv i data_indices hi hleaf)

theorem leaves_large_or_root_witness :
    fit 2 halving_split keep_order 10 [] (alternating 8) { example_opts with max_depth := 5 }
        () = Except.ok deep_example_result ∧
    deep_example_result.the_nodes[4]? = some (k_ary_node.leaf [2, 3]) ∧
    (example_opts.min_samples_in_leaf ≤ [2, 3].length ∨ 4 = 0) :=
  ⟨rfl, rfl, leaves_large_or_root 2 halving_split keep_order 10 (alternating 8)
    { example_opts with max_depth := 5 } () deep_example_result 4 [2, 3]
    halving_split_appends_consecutive rfl rfl⟩

end leaf_size

section faults
variable {S RNG : Type}

theorem fit_run_succ_of_iteration_error (k : Nat) (make_internal_node : split_strategy S)
    (shuffle : shuffle_fn RNG) (data : data_container) (tree_opts : tree_options)
    (n : Nat) (s : fit_state S RNG) (front : temporary_node) (rest : List temporary_node)
    (e : fit_error) (hq : s.tmp_nodes = front :: rest)
    (h : is_not_pure data tree_opts front = Except.error e) :
    fit_run k make_internal_node shuffle data tree_opts (n + 1) s = Except.error e := by
  unfold fit_run
  rw [hq]
  simp only
  unfold fit_iteration front_is_not_pure
  simp only
  rw [hq]
  simp only [h]

/-- C10, evaluated on the code: on a data set without data points line 69 reads
`data_indices[0]` of an empty vector, and on a data set with a single data point the scan of
line 71 starts at `end()` and line 72 dereferences it. In both cases the purity scan of the
first pass reads outside the instance set of the root descriptor, and the call of `fit` stops
there, whatever the configuration is. -/
theorem fit_reads_outside_instance_set (k : Nat) (make_internal_node : split_strategy S)
    (shuffle : shuffle_fn RNG) (fuel : Nat) (the_nodes : List (k_ary_node S))
    (num_features : Nat) (response : Nat → Int) (tree_opts : tree_options) (rng : RNG) :
    (front_is_not_pure ⟨num_features, 0, response⟩ tree_opts
        (fit_init the_nodes ⟨num_features, 0, response⟩ rng) =
      Except.error fit_error.out_of_bounds ∧
     fit k make_internal_node shuffle (fuel + 1) the_nodes ⟨num_features, 0, response⟩
        tree_opts rng = Except.error fit_error.out_of_bounds) ∧
    (front_is_not_pure ⟨num_features, 1, response⟩ tree_opts
        (fit_init the_nodes ⟨num_features, 1, response⟩ rng) =
      Except.error fit_error.out_of_bounds ∧
     fit k make_internal_node shuffle (fuel + 1) the_nodes ⟨num_features, 1, response⟩
        tree_opts rng = Except.error fit_error.out_of_bounds) := by
  refine ⟨⟨rfl, ?_⟩, ⟨rfl, ?_⟩⟩
  · unfold fit
    rw [fit_run_succ_of_iteration_error k make_internal_node shuffle _ tree_opts fuel _
      ⟨0, 0, 0, []⟩ [] fit_error.out_of_bounds rfl rfl]
  · unfold fit
    rw [fit_run_succ_of_iteration_error k make_internal_node shuffle _ tree_opts fuel _
      ⟨0, 0, 0, [0]⟩ [] fit_error.out_of_bounds rfl rfl]

theorem purity_scan_error (data : data_container) (eps ref : Int) (e : fit_error) :
    ∀ (rest : List Nat) (pos : Nat), purity_scan data eps ref pos rest = Except.error e →
      e = fit_error.out_of_bounds
  | [], pos, h => by
    unfold purity_scan at h
    split at h
    · cases h
    · cases h; rfl
  | i :: rest, pos, h => by
    unfold purity_scan at h
    split at h
    · cases h
    · simp only at h
      split at h
      · cases h
      · exact purity_scan_error data eps ref e rest (pos + 1) h

theorem is_not_pure_error {data : data_container} {tree_opts : tree_options}
    {front : temporary_node} {e : fit_error}
    (h : is_not_pure data tree_opts front = Except.error e) : e = fit_error.out_of_bounds := by
  unfold is_not_pure at h
  split at h
  · cases h; rfl
  · exact purity_scan_error _ _ _ _ _ _ h

theorem finalize_leaf_error {the_nodes : List (k_ary_node S)} {tmp : temporary_node}
    {e : fit_error} (h : finalize_leaf the_nodes tmp = Except.error e) :
    e = fit_error.out_of_bounds := by
  unfold finalize_leaf at h
  split at h
  · cases h; rfl
  · cases h

theorem rollback_error {k : Nat} {s : fit_state S RNG} {e : fit_error}
    (h : rollback k s = Except.error e) : e = fit_error.out_of_bounds := by
  unfold rollback at h
  split at h
  · cases h; rfl
  · split at h
    · cases h; rfl
    · split at h
      · next e' he' => cases h; exact finalize_leaf_error he'
      · cases h

theorem check_split_error {k : Nat} {tree_opts : tree_options} {s : fit_state S RNG}
    {e : fit_error} (h : check_split k tree_opts s = Except.error e) :
    e = fit_error.out_of_bounds := by
  unfold check_split at h
  split at h
  · cases h; rfl
  · split at h
    · exact rollback_error h
    · cases h

theorem split_attempt_error {make_internal_node : split_strategy S} {shuffle : shuffle_fn RNG}
    {data : data_container} {tree_opts : tree_options} {front : temporary_node}
    {s : fit_state S RNG} {e : fit_error}
    (h : split_attempt make_internal_node shuffle data tree_opts front s = Except.error e) :
    e = fit_error.out_of_bounds := by
  unfold split_attempt at h
  simp only at h
  split at h
  · split at h
    · cases h; rfl
    · cases h
  · cases h; rfl

theorem split_or_leaf_error {k : Nat} {make_internal_node : split_strategy S}
    {shuffle : shuffle_fn RNG} {data : data_container} {tree_opts : tree_options}
    {not_pure : Bool} {s : fit_state S RNG} {e : fit_error}
    (h : split_or_leaf k make_internal_node shuffle data tree_opts not_pure s = Except.error e) :
    e = fit_error.out_of_bounds := by
  unfold split_or_leaf at h
  split at h
  · cases h; rfl
  · split at h
    · split at h
      · next e' he' => cases h; exact split_attempt_error he'
      · exact check_split_error h
    · split at h
      · next e' he' => cases h; exact finalize_leaf_error he'
      · cases h

theorem fit_iteration_error {k : Nat} {make_internal_node : split_strategy S}
    {shuffle : shuffle_fn RNG} {data : data_container} {tree_opts : tree_options}
    {s : fit_state S RNG} {e : fit_error}
    (h : fit_iteration k make_internal_node shuffle data tree_opts s = Except.error e) :
    e = fit_error.out_of_bounds := by
  unfold fit_iteration at h
  simp only at h
  split at h
  · next e' he' =>
    cases h
    unfold front_is_not_pure at he'
    split at he'
    · cases he'; rfl
    · exact is_not_pure_error he'
  · split at h
    · next e' he' => cases h; exact split_or_leaf_error he'
    · unfold pop_front at h
      split at h
      · cases h; rfl
      · cases h

/-- A pass of the loop can only fail by a read or write outside a container. -/
theorem fit_run_error (k : Nat) (make_internal_node : split_strategy S)
    (shuffle : shuffle_fn RNG) (data : data_container) (tree_opts : tree_options)
    (e : fit_error) :
    ∀ (n : Nat) (s0 : fit_state S RNG),
      fit_run k make_internal_node shuffle data tree_opts n s0 = Except.error e →
      e = fit_error.out_of_bounds
  | 0, s0, h => by
    unfold fit_run at h
    cases h
  | n + 1, s0, h => by
    unfold fit_run at h
    split at h
    · cases h
    · split at h
      · next e' he' => cases h; exact fit_iteration_error he'
      · exact fit_run_error k make_internal_node shuffle data tree_opts e n _ h

theorem fit_run_passes_counted (k : Nat) (make_internal_node : split_strategy S)
    (shuffle : shuffle_fn RNG) (data : data_container) (tree_opts : tree_options)
    (hmax : k ≤ tree_opts.max_num_nodes) (hs : appends_consecutive k make_internal_node) :
    ∀ (n c : Nat) (s0 s : fit_state S RNG), queue_shape c s0 →
      c + s0.tmp_nodes.length ≤ tree_opts.max_num_nodes →
      fit_run k make_internal_node shuffle data tree_opts n s0 = Except.ok s →
      s.tmp_nodes = [] ∨ c + n + s.tmp_nodes.length ≤ tree_opts.max_num_nodes
  | 0, c, s0, s, _, hb, h => by
    unfold fit_run at h
    cases h
    exact Or.inr hb
  | n + 1, c, s0, s, hsh, hb, h => by
    by_cases hq0 : s0.tmp_nodes = []
    · rw [fit_run_of_empty _ _ _ _ _ _ _ hq0] at h
      cases h
      exact Or.inl hq0
    · obtain ⟨front, rest, hq⟩ := List.exists_cons_of_ne_nil hq0
      cases hit : fit_iteration k make_internal_node shuffle data tree_opts s0 with
      | error e =>
        unfold fit_run at h
        rw [hq] at h
        simp only [hit] at h
        cases h
      | ok s1 =>
        rw [fit_run_succ_of_iteration _ _ _ _ _ n s0 s1 hq0 hit] at h
        obtain ⟨hsh1, hb1⟩ := budget_step hmax hs hsh hb hq0 hit
        rcases fit_run_passes_counted k make_internal_node shuffle data tree_opts hmax hs
          n (c + 1) s1 s hsh1 hb1 h with he | hle
        · exact Or.inl he
        · exact Or.inr (by omega)

/-- The loop of `fit` is bounded by the node budget: with `k ≥ 1`, `max_num_nodes ≥ k` and a
split strategy that appends exactly `k` descriptors with consecutive node indices, a call on an
empty node array that may make `max_num_nodes` passes never runs out of passes: it reaches the
empty queue or stops at a read outside a container. -/
theorem fit_stops_within_budget (k : Nat) (make_internal_node : split_strategy S)
    (shuffle : shuffle_fn RNG) (data : data_container) (tree_opts : tree_options) (rng : RNG)
    (hk : 1 ≤ k) (hmax : k ≤ tree_opts.max_num_nodes)
    (hs : appends_consecutive k make_internal_node) :
    (∃ s, fit k make_internal_node shuffle tree_opts.max_num_nodes [] data tree_opts rng =
      Except.ok s) ∨
    fit k make_internal_node shuffle tree_opts.max_num_nodes [] data tree_opts rng =
      Except.error fit_error.out_of_bounds := by
  cases hrun : fit_run k make_internal_node shuffle data tree_opts tree_opts.max_num_nodes
      (fit_init [] data rng) with
  | error e =>
    have hfit : fit k make_internal_node shuffle tree_opts.max_num_nodes [] data tree_opts rng =
        Except.error e := by
      unfold fit; rw [hrun]
    rw [fit_run_error k make_internal_node shuffle data tree_opts e _ _ hrun] at hfit
    exact Or.inr hfit
  | ok s =>
    left
    rcases fit_run_passes_counted k make_internal_node shuffle data tree_opts hmax hs
      tree_opts.max_num_nodes 0 _ s (queue_shape_init data rng)
      (by simp [fit_init]; omega) hrun with he | hle
    · exact ⟨s, by unfold fit; rw [hrun]; simp only; rw [he]⟩
    · have he : s.tmp_nodes = [] := List.length_eq_zero.mp (by omega)
      exact ⟨s, by unfold fit; rw [hrun]; simp only; rw [he]⟩

/-- C9, evaluated on the code: on a data set with a single data point, and on a data set
without data points, the loop of `fit` never reaches an empty queue, whatever the number of
passes allowed is: a call of `fit` always ends with an error, because the first pass stops at
a read outside the instance set of the root descriptor (in the purity scan, respectively at
`data_indices[0]`). -/
theorem fit_small_data_never_completes (k : Nat) (make_internal_node : split_strategy S)
    (shuffle : shuffle_fn RNG) (the_nodes : List (k_ary_node S))
    (num_features : Nat) (response : Nat → Int) (tree_opts : tree_options) (rng : RNG)
    (fuel : Nat) :
    (∃ e, fit k make_internal_node shuffle fuel the_nodes ⟨num_features, 1, response⟩
      tree_opts rng = Except.error e) ∧
    (∃ e, fit k make_internal_node shuffle fuel the_nodes ⟨num_features, 0, response⟩
      tree_opts rng = Except.error e) := by
  cases fuel with
  | zero => exact ⟨⟨fit_error.out_of_fuel, rfl⟩, ⟨fit_error.out_of_fuel, rfl⟩⟩
  | succ n =>
    refine ⟨⟨fit_error.out_of_bounds, ?_⟩, ⟨fit_error.out_of_bounds, ?_⟩⟩
    · unfold fit
      rw [fit_run_succ_of_iteration_error k make_internal_node shuffle _ tree_opts n _
        ⟨0, 0, 0, [0]⟩ [] fit_error.out_of_bounds rfl rfl]
    · unfold fit
      rw [fit_run_succ_of_iteration_error k make_internal_node shuffle _ tree_opts n _
        ⟨0, 0, 0, []⟩ [] fit_error.out_of_bounds rfl rfl]

end faults

section pure_descriptors
variable {S RNG : Type}

theorem is_not_pure_of_constant (num_features num_data_points : Nat) (c : Int)
    (max_features max_depth min_samples_to_split min_samples_in_leaf max_num_nodes : Nat)
    (front : temporary_node) :
    is_not_pure ⟨num_features, num_data_points, fun _ => c⟩
        ⟨max_features, max_depth, min_samples_to_split, min_samples_in_leaf, max_num_nodes, 0⟩
        front = Except.error fit_error.out_of_bounds := by
  obtain ⟨node_index, parent_index, node_level, data_indices⟩ := front
  cases data_indices with
  | nil => rfl
  | cons i0 rest =>
    rw [is_not_pure_cons]
    simp [num_abs]

/-- C11, evaluated on the code: on a data set whose responses are all equal (here `n + 1` data
points with response `c`, tolerance 0), every response is within `epsilon_purity` of the first
one, but `fit` does not end with a one-leaf tree: the purity scan of the first pass runs past
the last instance and the call stops at that read, whatever `max_depth` and
`min_samples_to_split` are. -/
theorem fit_fails_on_pure_root (k : Nat) (make_internal_node : split_strategy S)
    (shuffle : shuffle_fn RNG) (fuel : Nat) (the_nodes : List (k_ary_node S))
    (num_features n : Nat) (c : Int)
    (max_features max_depth min_samples_to_split min_samples_in_leaf max_num_nodes : Nat)
    (rng : RNG) :
    fit k make_internal_node shuffle (fuel + 1) the_nodes ⟨num_features, n + 1, fun _ => c⟩
        ⟨max_features, max_depth, min_samples_to_split, min_samples_in_leaf, max_num_nodes, 0⟩
        rng = Except.error fit_error.out_of_bounds := by
  unfold fit
  rw [fit_run_succ_of_iteration_error k make_internal_node shuffle _ _ fuel _
    ⟨0, 0, 0, List.range (n + 1)⟩ [] fit_error.out_of_bounds rfl
    (is_not_pure_of_constant _ _ _ _ _ _ _ _ _)]

/-- C2, evaluated on the code: a pass of the loop on a pending descriptor that is pure (every
instance after the first has the response of the first one, and the tolerance is not negative)
does not make the slot of that descriptor a leaf. The scan of lines 66-77 finds no violation,
does not meet `begin()` again and reads past the last instance; the pass stops at that read,
whatever the other three conditions of lines 80-83, the split strategy, the shuffle and the
rest of the state are. -/
theorem pure_descriptor_not_made_leaf (k : Nat) (make_internal_node : split_strategy S)
    (shuffle : shuffle_fn RNG) (data : data_container) (tree_opts : tree_options)
    (s : fit_state S RNG) (node_index parent_index node_level i0 : Nat) (others : List Nat)
    (rest : List temporary_node)
    (hq : s.tmp_nodes = ⟨node_index, parent_index, node_level, i0 :: others⟩ :: rest)
    (heps : 0 ≤ tree_opts.epsilon_purity)
    (hpure : ∀ i ∈ others, data.response i = data.response i0) :
    fit_iteration k make_internal_node shuffle data tree_opts s =
      Except.error fit_error.out_of_bounds := by
  have hscan : is_not_pure data tree_opts ⟨node_index, parent_index, node_level, i0 :: others⟩ =
      Except.error fit_error.out_of_bounds := by
    rw [is_not_pure_cons, if_neg]
    rintro ⟨i, hi, hgt⟩
    rw [hpure i hi, sub_self] at hgt
    have h0 : num_abs 0 = 0 := rfl
    rw [h0] at hgt
    omega
  unfold fit_iteration front_is_not_pure
  simp only
  rw [hq]
  simp only [hscan]

theorem pure_descriptor_not_made_leaf_witness :
    fit_iteration 2 halving_split keep_order ⟨2, 4, fun _ => 7⟩ ⟨1, 0, 2, 2, 10, 1⟩
        (fit_init [] ⟨2, 4, fun _ => 7⟩ ()) = Except.error fit_error.out_of_bounds :=
  pure_descriptor_not_made_leaf 2 halving_split keep_order ⟨2, 4, fun _ => 7⟩
    ⟨1, 0, 2, 2, 10, 1⟩ (fit_init [] ⟨2, 4, fun _ => 7⟩ ()) 0 0 0 0 [1, 2, 3] [] rfl
    (by decide) (fun _ _ => rfl)

/-- A run that has reached the empty queue is not changed by further passes. -/
theorem fit_run_mono (k : Nat) (make_internal_node : split_strategy S)
    (shuffle : shuffle_fn RNG) (data : data_container) (tree_opts : tree_options) :
    ∀ (n m : Nat) (s0 s : fit_state S RNG), n ≤ m →
      fit_run k make_internal_node shuffle data tree_opts n s0 = Except.ok s →
      s.tmp_nodes = [] →
      fit_run k make_internal_node shuffle data tree_opts m s0 = Except.ok s
  | 0, m, s0, s, _, h, he => by
    unfold fit_run at h
    cases h
    exact fit_run_of_empty _ _ _ _ _ _ _ he
  | n + 1, m, s0, s, hnm, h, he => by
    obtain ⟨m', rfl⟩ : ∃ m', m = m' + 1 := ⟨m - 1, by omega⟩
    by_cases hq0 : s0.tmp_nodes = []
    · rw [fit_run_of_empty _ _ _ _ _ _ _ hq0] at h ⊢
      exact h
    · obtain ⟨front, rest, hq⟩ := List.exists_cons_of_ne_nil hq0
      cases hit : fit_iteration k make_internal_node shuffle data tree_opts s0 with
      | error e =>
        unfold fit_run at h
        rw [hq] at h
        simp only [hit] at h
        cases h
      | ok s1 =>
        rw [fit_run_succ_of_iteration _ _ _ _ _ _ s0 s1 hq0 hit] at h ⊢
        exact fit_run_mono k make_internal_node shuffle data tree_opts n m' s1 s
          (by omega) h he

end pure_descriptors

section prediction
variable {S : Type}

/-- C13, evaluated on the code: `predict` for a single feature vector returns no value on any
tree and any feature vector, in particular not the aggregate of the root on a tree whose root
is a leaf: the body of the function (lines 132-134) is empty. -/
theorem predict_returns_nothing (the_nodes : List (k_ary_node S)) (feature_vector : List Int)
    (data_indices : List Nat) :
    predict the_nodes feature_vector = none ∧
    predict [(k_ary_node.leaf data_indices : k_ary_node S)] feature_vector = none :=
  ⟨rfl, rfl⟩

/-- C14, evaluated on the code: `predict` for a data container returns no sequence of
predictions on any tree and any data container, so also none with one value per instance:
the body of the function (lines 143-145) is empty. -/
theorem predict_batch_returns_nothing (the_nodes : List (k_ary_node S))
    (data : data_container) :
    predict_batch the_nodes data = none :=
  rfl

end prediction

section root_leaf
variable {S RNG : Type}

/-- The part of the one-leaf law that the code keeps: when the purity scan finds the root not
pure, and `max_depth` is 0 or the data set has fewer than `min_samples_to_split` data points,
the first pass of `fit` on an empty node array makes the root a leaf with all instances and
empties the queue, without a call of the split strategy or the shuffle. -/
theorem fit_one_leaf_of_impure_root (k : Nat) (make_internal_node : split_strategy S)
    (shuffle : shuffle_fn RNG) (fuel : Nat) (data : data_container) (tree_opts : tree_options)
    (rng : RNG)
    (hnp : is_not_pure data tree_opts ⟨0, 0, 0, List.range data.num_data_points⟩ =
      Except.ok true)
    (hfail : tree_opts.max_depth = 0 ∨
      data.num_data_points < tree_opts.min_samples_to_split) :
    fit k make_internal_node shuffle (fuel + 1) [] data tree_opts rng =
      Except.ok { the_nodes := [k_ary_node.leaf (List.range data.num_data_points)],
                  tmp_nodes := [],
                  feature_indices := List.range data.num_features,
                  rng := rng } := by
  have hw : splitworthy k tree_opts ⟨0, 0, 0, List.range data.num_data_points⟩ true 1 =
      false := by
    unfold splitworthy
    rcases hfail with h | h
    · simp [h]
    · simp [h]
  have hit : fit_iteration k make_internal_node shuffle data tree_opts
      (fit_init [] data rng) =
      Except.ok { the_nodes := [k_ary_node.leaf (List.range data.num_data_points)],
                  tmp_nodes := [],
                  feature_indices := List.range data.num_features,
                  rng := rng } := by
    unfold fit_iteration front_is_not_pure
    simp only [fit_init, hnp]
    unfold split_or_leaf
    simp only [resize_nodes, List.getLast?_singleton, List.length_nil, ge_iff_le, Nat.zero_le,
      if_true, resize, List.take_nil, List.nil_append, Nat.sub_zero, Nat.zero_add,
      List.replicate, List.length_singleton, hw]
    rfl
  unfold fit
  rw [fit_run_succ_of_iteration _ _ _ _ _ fuel _ _ (by simp [fit_init]) hit,
    fit_run_of_empty _ _ _ _ _ _ _ rfl]

end root_leaf

section legality
variable {S RNG : Type}

theorem legality_window_append (k : Nat) (q children : List temporary_node)
    (hk : children.length = k) : legality_window k (q ++ children) = children := by
  unfold legality_window
  have hlen : (q ++ children).length - k = q.length := by
    simp only [List.length_append]; omega
  rw [hlen, List.drop_left]

theorem length_le_flatten_of_mem (c : temporary_node) :
    ∀ (children : List temporary_node), c ∈ children →
      c.data_indices.length ≤ (children.map temporary_node.data_indices).flatten.length
  | [], h => by cases h
  | d :: ds, h => by
    simp only [List.map_cons, List.flatten_cons, List.length_append]
    rcases List.mem_cons.mp h with rfl | h
    · omega
    · have := length_le_flatten_of_mem c ds h
      omega

/-- The two readings of line 100 decide alike in the runs of `fit` with a split strategy that
partitions: the loop that starts `k` places before the last descriptor visits, besides the `k`
new descriptors, the last descriptor that was queued before the split. Either that descriptor
is the one being split and alone in the queue, and then one of its children has no more
instances than it has; or it has been queued by a split that was kept, and then it has at least
`min_samples_in_leaf` instances. -/
theorem legality_readings_agree (k : Nat) (make_internal_node : split_strategy S)
    (shuffle : shuffle_fn RNG) (data : data_container) (tree_opts : tree_options)
    (the_nodes : List (k_ary_node S)) (rng : RNG) (passes : Nat) (s s1 : fit_state S RNG)
    (front : temporary_node) (rest : List temporary_node)
    (hs : appends_consecutive k make_internal_node) (hp : appends_partition make_internal_node)
    (hk : 1 ≤ k)
    (h : fit_run k make_internal_node shuffle data tree_opts passes
      (fit_init the_nodes data rng) = Except.ok s)
    (hq : s.tmp_nodes = front :: rest)
    (h1 : split_attempt make_internal_node shuffle data tree_opts front
      { s with the_nodes := resize_nodes s } = Except.ok s1) :
    illegal_split_from_back k tree_opts s1.tmp_nodes = illegal_split k tree_opts s1.tmp_nodes := by
  have hinv : s.tmp_nodes.length ≤ 1 ∨
      ∀ t ∈ s.tmp_nodes, tree_opts.min_samples_in_leaf ≤ t.data_indices.length :=
    fit_run_invariant k make_internal_node shuffle data tree_opts
      (fun s => s.tmp_nodes.length ≤ 1 ∨
        ∀ t ∈ s.tmp_nodes, tree_opts.min_samples_in_leaf ≤ t.data_indices.length)
      (fun s s' hP hne hit => by
        obtain ⟨f, r, hfr⟩ := List.exists_cons_of_ne_nil hne
        obtain ⟨-, hcase⟩ := fit_iteration_cases hs hfr hit
        simp only at hP ⊢
        rw [hfr] at hP
        rcases hcase with ⟨-, ht⟩ | ⟨split, children, node, fs, -, -, -, hleg, -, ht⟩
        · rw [ht]
          rcases hP with hP | hP
          · left
            simp only [List.length_cons] at hP
            omega
          · right
            intro t ht'
            exact hP t (List.mem_cons_of_mem _ ht')
        · rw [ht]
          right
          intro t ht'
          rcases List.mem_append.mp ht' with hr | hch
          · rcases hP with hP | hP
            · simp only [List.length_cons] at hP
              have : r = [] := List.eq_nil_of_length_eq_zero (by omega)
              rw [this] at hr
              cases hr
            · exact hP t (List.mem_cons_of_mem _ hr)
          · exact hleg t hch)
      passes _ s (Or.inl (by simp [fit_init])) h
  obtain ⟨node, fs, -, -, hq1⟩ := split_attempt_ok h1
  simp only at hq1
  obtain ⟨children, hch, hidx⟩ := hs node front data fs (resize_nodes s).length s.tmp_nodes
  obtain ⟨children', hch', hpart⟩ := hp node front data fs (resize_nodes s).length s.tmp_nodes
  have hsame : children = children' := by
    rw [hch] at hch'
    exact List.append_cancel_left hch'
  subst hsame
  have hklen : children.length = k := by
    have := congrArg List.length hidx
    simpa using this
  rw [hch] at hq1
  have hwin : legality_window_from_back k s1.tmp_nodes =
      s.tmp_nodes.drop (s.tmp_nodes.length - 1) ++ children := by
    unfold legality_window_from_back
    rw [hq1]
    have hlen : (s.tmp_nodes ++ children).length - 1 - k = s.tmp_nodes.length - 1 := by
      simp only [List.length_append]; omega
    rw [hlen, List.drop_append_of_le_length (by omega)]
  unfold illegal_split_from_back illegal_split
  rw [hwin, hq1, legality_window_append k _ _ hklen, List.any_append]
  cases hany : children.any
      (fun t => decide (t.data_indices.length < tree_opts.min_samples_in_leaf)) with
  | true => simp
  | false =>
    rw [Bool.or_false]
    rw [List.any_eq_false] at hany ⊢
    intro t ht
    have htq : t ∈ s.tmp_nodes := List.mem_of_mem_drop ht
    rcases hinv with hone | hall
    · rw [hq] at hone htq
      simp only [List.length_cons] at hone
      have hr : rest = [] := List.eq_nil_of_length_eq_zero (by omega)
      rw [hr] at htq
      have htf : t = front := by simpa using htq
      obtain ⟨c, hcm⟩ := List.exists_mem_of_length_pos (by omega : 0 < children.length)
      have hcl := length_le_flatten_of_mem c children hcm
      rw [hpart.length_eq] at hcl
      have hcleg := hany c hcm
      simp only [decide_eq_true_eq] at hcleg ⊢
      rw [htf]
      omega
    · have := hall t htq
      simp only [decide_eq_true_eq]
      omega

end legality
section capacity
variable {S RNG : Type}

theorem queue_shape_of_run {k : Nat} {make_internal_node : split_strategy S}
    {shuffle : shuffle_fn RNG} {data : data_container} {tree_opts : tree_options}
    {rng : RNG} {n : Nat} {s : fit_state S RNG}
    (hs : appends_consecutive k make_internal_node)
    (h : fit_run k make_internal_node shuffle data tree_opts n (fit_init [] data rng) =
      Except.ok s) :
    ∃ c, queue_shape c s :=
  fit_run_counted_invariant k make_internal_node shuffle data tree_opts
    (fun c s => queue_shape c s)
    (fun c s s' hsh hne hit => by
      obtain ⟨front, rest, hq⟩ := List.exists_cons_of_ne_nil hne
      exact (queue_shape_step hs hsh hq hit).2.2.2)
    n 0 _ s (queue_shape_init data rng) h

/-- C18: for `fit` started on an empty node array with a split strategy that appends
descriptors with the node indices `next_index, ..., next_index + k - 1`: at the head of every
pass, after the resize of lines 61-62, the node index of the front descriptor is smaller than
the size of the node array; so the slot read at line 92 exists, `make_leaf_node` at line 119
finds its slot, and so does `make_leaf_node` at line 114 after a split attempt. -/
theorem front_slot_in_bounds (k : Nat) (make_internal_node : split_strategy S)
    (shuffle : shuffle_fn RNG) (data : data_container) (tree_opts : tree_options) (rng : RNG)
    (passes : Nat) (s : fit_state S RNG) (front : temporary_node) (rest : List temporary_node)
    (hs : appends_consecutive k make_internal_node)
    (h : fit_run k make_internal_node shuffle data tree_opts passes (fit_init [] data rng) =
      Except.ok s)
    (hq : s.tmp_nodes = front :: rest) :
    front.node_index < (resize_nodes s).length ∧
    (∃ node, (resize_nodes s)[front.node_index]? = some node) ∧
    (∃ nodes, finalize_leaf (resize_nodes s) front = Except.ok nodes) ∧
    (∀ s1, split_attempt make_internal_node shuffle data tree_opts front
        { s with the_nodes := resize_nodes s } = Except.ok s1 →
      ∃ nodes, finalize_leaf s1.the_nodes front = Except.ok nodes) := by
  obtain ⟨c, hsh⟩ := queue_shape_of_run hs h
  have hne : s.tmp_nodes ≠ [] := by rw [hq]; simp
  have hlen := resize_nodes_length_of_shape hsh hne
  have hidx := hsh.indices
  rw [hq] at hidx hlen
  simp only [List.map_cons, List.length_cons, List.range'_succ, List.cons.injEq] at hidx hlen
  have hlt : front.node_index < (resize_nodes s).length := by
    rw [hlen, hidx.1]; omega
  refine ⟨hlt, ⟨_, List.getElem?_eq_getElem hlt⟩, ⟨_, finalize_leaf_of_lt _ _ hlt⟩, ?_⟩
  intro s1 h1
  obtain ⟨node, fs, -, hn1, -⟩ := split_attempt_ok h1
  exact ⟨_, finalize_leaf_of_lt _ _ (by rw [hn1, List.length_set]; exact hlt)⟩

theorem front_slot_in_bounds_witness :
    fit_run 2 halving_split keep_order (alternating 4) example_opts 1
        (fit_init [] (alternating 4) ()) = Except.ok example_state_after_root ∧
    example_state_after_root.tmp_nodes = ⟨1, 0, 1, [0, 1]⟩ :: [⟨2, 0, 1, [2, 3]⟩] ∧
    ((1 : Nat) < (resize_nodes example_state_after_root).length ∧
    (∃ node, (resize_nodes example_state_after_root)[1]? = some node) ∧
    (∃ nodes, finalize_leaf (resize_nodes example_state_after_root) ⟨1, 0, 1, [0, 1]⟩ =
      Except.ok nodes) ∧
    (∀ s1, split_attempt halving_split keep_order (alternating 4) example_opts ⟨1, 0, 1, [0, 1]⟩
        { example_state_after_root with the_nodes := resize_nodes example_state_after_root } =
        Except.ok s1 →
      ∃ nodes, finalize_leaf s1.the_nodes ⟨1, 0, 1, [0, 1]⟩ = Except.ok nodes)) :=
  ⟨rfl, rfl, front_slot_in_bounds 2 halving_split keep_order (alternating 4) example_opts () 1
    example_state_after_root ⟨1, 0, 1, [0, 1]⟩ [⟨2, 0, 1, [2, 3]⟩]
    halving_split_appends_consecutive rfl rfl⟩

end capacity

section previous_nodes
variable {S RNG : Type}

theorem resize_nodes_init_of_nonempty (the_nodes : List (k_ary_node S)) (data : data_container)
    (rng : RNG) (hm : 1 ≤ the_nodes.length) :
    resize_nodes (fit_init the_nodes data rng) = the_nodes := by
  unfold resize_nodes fit_init
  simp only [List.getLast?_singleton]
  rw [if_neg (by omega)]

/-- What a pass of the loop leaves in the slot of the descriptor it consumes: a leaf with the
instance set of that descriptor, or the internal node that the split strategy has built from
the node it found in that slot. -/
theorem fit_iteration_front_slot {k : Nat} {make_internal_node : split_strategy S}
    {shuffle : shuffle_fn RNG} {data : data_container} {tree_opts : tree_options}
    {s s' : fit_state S RNG} {front : temporary_node} {rest : List temporary_node}
    (hs : appends_consecutive k make_internal_node)
    (hq : s.tmp_nodes = front :: rest)
    (h : fit_iteration k make_internal_node shuffle data tree_opts s = Except.ok s') :
    s'.the_nodes[front.node_index]? = some (k_ary_node.leaf front.data_indices) ∨
    ∃ node feature_subset, (resize_nodes s)[front.node_index]? = some node ∧
      s'.the_nodes[front.node_index]? = some (k_ary_node.internal
        (make_internal_node node front data feature_subset (resize_nodes s).length
          s.tmp_nodes).1) := by
  obtain ⟨np, s2, -, h2, x, -, hn⟩ := fit_iteration_ok h
  obtain ⟨front', rest', hq', hcase⟩ := split_or_leaf_ok h2
  have hq'' : front' :: rest' = front :: rest := by rw [← hq', ← hq]
  cases hq''
  rcases hcase with ⟨-, hlt, hs2⟩ | ⟨-, s1, h1, hc⟩
  · left
    rw [hn, hs2]
    simp only at hlt ⊢
    rw [List.getElem?_set, if_pos rfl, if_pos hlt]
  · obtain ⟨node, fs, hnode, hn1, hq1⟩ := split_attempt_ok h1
    have hlt : front.node_index < (resize_nodes s).length := (List.getElem?_eq_some.mp hnode).1
    simp only at hn1 hq1 hnode
    rcases check_split_ok hc with ⟨-, hs2⟩ | ⟨-, hroll⟩
    · right
      refine ⟨node, fs, hnode, ?_⟩
      rw [hn, hs2, hn1, List.getElem?_set, if_pos rfl, if_pos hlt]
    · left
      obtain ⟨children, hch, hidx⟩ := hs node front data fs (resize_nodes s).length s.tmp_nodes
      have hklen : children.length = k := by
        have := congrArg List.length hidx
        simpa using this
      rw [hch] at hq1
      obtain ⟨f2, r2, htake, -, hs2⟩ := rollback_ok hroll
      have htake' : s1.tmp_nodes.take (s1.tmp_nodes.length - k) = front :: rest := by
        rw [hq1, hq]
        have : ((front :: rest) ++ children).length - k = (front :: rest).length := by
          simp only [List.length_append]; omega
        rw [this, List.take_left]
      rw [htake'] at htake
      cases htake
      rw [hn, hs2]
      simp only
      rw [hn1, List.getElem?_set, if_pos rfl, if_pos (by rw [List.length_set]; exact hlt)]

/-- C19 as claimed fails: started on the node array that an earlier call with the same
arguments has left (3 nodes, the root with the children 1 and 2), `fit` ends with 5 nodes: the
new root has the children 3 and 4, and the slots 1 and 2 still hold the leaves of the earlier
tree. Started on an empty node array it ends with 3 nodes. -/
theorem independent_of_previous_nodes_fails :
    fit 2 halving_split keep_order 10 example_result.the_nodes (alternating 4) example_opts () =
      Except.ok refit_result ∧
    fit 2 halving_split keep_order 10 [] (alternating 4) example_opts () =
      Except.ok example_result ∧
    refit_result.the_nodes.length = 5 ∧ example_result.the_nodes.length = 3 ∧
    ¬ independent_of_previous_nodes 2 halving_split keep_order 10 example_result.the_nodes
      (alternating 4) example_opts () := by
  refine ⟨rfl, rfl, rfl, rfl, ?_⟩
  intro hind
  have h := hind refit_result example_result rfl rfl
  revert h
  decide

/-- C19, amended: `fit` continues the node array it finds. Started on a node array that holds
`m ≥ 1` nodes, with a split strategy that appends exactly `k` descriptors with the node indices
`next_index, ..., next_index + k - 1`, a completed call overwrites node 0 with the new root: a
leaf that holds all instances, or the internal node that the split strategy has built from the
node it found at index 0, called with `next_index = m`. The descriptors queued after the first
pass (the children of the root) have the node indices `m, m + 1, ...`. The node array of the
completed call has at least `m` nodes, and its nodes at the indices `1, ..., m - 1` are the
ones the call found; only node 0 is overwritten. -/
theorem fit_keeps_previous_nodes (k : Nat) (make_internal_node : split_strategy S)
    (shuffle : shuffle_fn RNG) (fuel : Nat) (the_nodes : List (k_ary_node S))
    (data : data_container) (tree_opts : tree_options) (rng : RNG) (s : fit_state S RNG)
    (hs : appends_consecutive k make_internal_node)
    (hm : 1 ≤ the_nodes.length)
    (h : fit k make_internal_node shuffle fuel the_nodes data tree_opts rng = Except.ok s) :
    (s.the_nodes[0]? = some (k_ary_node.leaf (List.range data.num_data_points)) ∨
      ∃ node feature_subset, the_nodes[0]? = some node ∧
        s.the_nodes[0]? = some (k_ary_node.internal
          (make_internal_node node ⟨0, 0, 0, List.range data.num_data_points⟩ data
            feature_subset the_nodes.length
            [⟨0, 0, 0, List.range data.num_data_points⟩]).1)) ∧
    (∃ s1, fit_run k make_internal_node shuffle data tree_opts 1
        (fit_init the_nodes data rng) = Except.ok s1 ∧
      s1.tmp_nodes.map temporary_node.node_index =
        List.range' the_nodes.length s1.tmp_nodes.length) ∧
    the_nodes.length ≤ s.the_nodes.length ∧
    ∀ i, 1 ≤ i → i < the_nodes.length → s.the_nodes[i]? = the_nodes[i]? := by
  obtain ⟨hrun, hempty⟩ := fit_ok h
  have hq0 : (fit_init the_nodes data rng).tmp_nodes =
      ⟨0, 0, 0, List.range data.num_data_points⟩ :: [] := rfl
  have hne0 : (fit_init the_nodes data rng).tmp_nodes ≠ [] := by rw [hq0]; simp
  have hres := resize_nodes_init_of_nonempty the_nodes data rng hm
  cases fuel with
  | zero =>
    unfold fit_run at hrun
    cases hrun
    rw [hq0] at hempty
    cases hempty
  | succ n =>
    cases hit : fit_iteration k make_internal_node shuffle data tree_opts
        (fit_init the_nodes data rng) with
    | error e =>
      unfold fit_run at hrun
      rw [hq0] at hrun
      simp only [hit] at hrun
      cases hrun
    | ok s1 =>
      rw [fit_run_succ_of_iteration _ _ _ _ _ n _ s1 hne0 hit] at hrun
      obtain ⟨-, hcase⟩ := fit_iteration_cases hs hq0 hit
      have hroot := fit_iteration_front_slot hs hq0 hit
      rw [hres] at hcase hroot
      have hshape : queue_shape the_nodes.length s1 ∧
          ∀ i, 1 ≤ i → s1.the_nodes[i]? = the_nodes[i]? := by
        rcases hcase with ⟨hn, ht⟩ | ⟨split, children, node, fs, -, hch, -, -, hn, ht⟩
        · refine ⟨⟨by rw [ht]; rfl, by rw [hn, List.length_set], ?_⟩, ?_⟩
          · rw [hn, List.length_set]; omega
          · intro i hi
            rw [hn, List.getElem?_set, if_neg (by simp only; omega)]
        · have hklen : children.length = k := by
            have := congrArg List.length hch
            simpa using this
          refine ⟨⟨?_, by rw [hn, List.length_set], ?_⟩, ?_⟩
          · rw [ht, List.nil_append, hch, hklen]
          · rw [hn, List.length_set]; omega
          · intro i hi
            rw [hn, List.getElem?_set, if_neg (by simp only; omega)]
      obtain ⟨hsh1, hkeep1⟩ := hshape
      obtain ⟨hlow, -, -, hkeep⟩ := fit_run_consumes_in_order k make_internal_node shuffle data
        tree_opts hs n the_nodes.length s1 s hsh1 hrun hempty
      refine ⟨?_, ⟨s1, ?_, hsh1.indices⟩, hlow, ?_⟩
      · rw [hkeep 0 (by omega)]
        exact hroot
      · rw [fit_run_succ_of_iteration _ _ _ _ _ 0 _ s1 hne0 hit]
        rfl
      · intro i hi1 hi2
        rw [hkeep i hi2, hkeep1 i hi1]

theorem fit_keeps_previous_nodes_witness :
    fit 2 halving_split keep_order 10 example_result.the_nodes (alternating 4) example_opts () =
      Except.ok refit_result ∧
    ((refit_result.the_nodes[0]? =
        some (k_ary_node.leaf (List.range (alternating 4).num_data_points)) ∨
      ∃ node feature_subset, example_result.the_nodes[0]? = some node ∧
        refit_result.the_nodes[0]? = some (k_ary_node.internal
          (halving_split node ⟨0, 0, 0, List.range (alternating 4).num_data_points⟩
            (alternating 4) feature_subset example_result.the_nodes.length
            [⟨0, 0, 0, List.range (alternating 4).num_data_points⟩]).1)) ∧
    (∃ s1, fit_run 2 halving_split keep_order (alternating 4) example_opts 1
        (fit_init example_result.the_nodes (alternating 4) ()) = Except.ok s1 ∧
      s1.tmp_nodes.map temporary_node.node_index =
        List.range' example_result.the_nodes.length s1.tmp_nodes.length) ∧
    example_result.the_nodes.length ≤ refit_result.the_nodes.length ∧
    ∀ i, 1 ≤ i → i < example_result.the_nodes.length →
      refit_result.the_nodes[i]? = example_result.the_nodes[i]?) :=
  ⟨rfl, fit_keeps_previous_nodes 2 halving_split keep_order 10 example_result.the_nodes
    (alternating 4) example_opts () refit_result halving_split_appends_consecutive
    (by decide) rfl⟩

end previous_nodes

section features
variable {S RNG : Type}

theorem split_attempt_features {make_internal_node : split_strategy S} {shuffle : shuffle_fn RNG}
    {data : data_container} {tree_opts : tree_options} {front : temporary_node}
    {s s1 : fit_state S RNG}
    (h : split_attempt make_internal_node shuffle data tree_opts front s = Except.ok s1) :
    ∃ node, s.the_nodes[front.node_index]? = some node ∧
      s1.tmp_nodes = (make_internal_node node front data (feature_subset shuffle tree_opts s)
        s.the_nodes.length s.tmp_nodes).2 ∧
      s1.feature_indices = (shuffle s.feature_indices s.rng).1 := by
  unfold split_attempt at h
  simp only at h
  split at h
  · split at h
    · cases h
    · next node hn =>
      cases h
      exact ⟨node, hn, rfl, rfl⟩
  · cases h

theorem fit_iteration_features {k : Nat} {make_internal_node : split_strategy S}
    {shuffle : shuffle_fn RNG} {data : data_container} {tree_opts : tree_options}
    {s s' : fit_state S RNG}
    (h : fit_iteration k make_internal_node shuffle data tree_opts s = Except.ok s') :
    s'.feature_indices = s.feature_indices ∨
      s'.feature_indices = (shuffle s.feature_indices s.rng).1 := by
  unfold fit_iteration at h
  simp only at h
  split at h
  · cases h
  · split at h
    · cases h
    · next not_pure _ s2 h2 =>
      have hpop : s'.feature_indices = s2.feature_indices := by
        unfold pop_front at h
        split at h
        · cases h
        · cases h; rfl
      rw [hpop]
      obtain ⟨front, rest, -, hcase⟩ := split_or_leaf_ok h2
      rcases hcase with ⟨-, -, hs2⟩ | ⟨-, s1, h1, hc⟩
      · left; rw [hs2]
      · right
        obtain ⟨node, -, -, hf1⟩ := split_attempt_features h1
        rcases check_split_ok hc with ⟨-, hs2⟩ | ⟨-, hroll⟩
        · rw [hs2]; exact hf1
        · obtain ⟨f2, r2, -, -, hs2⟩ := rollback_ok hroll
          rw [hs2]; exact hf1

theorem keep_order_permutes : shuffle_permutes keep_order :=
  fun _ _ => List.Perm.refl _

theorem rotate_features_permutes : shuffle_permutes rotate_features :=
  fun feature_indices rng => List.rotate_perm feature_indices (rng + 1)

/-- C17: when `std::shuffle` rearranges the sequence it is given and `max_features` is smaller
than the number of features (no lower bound on `max_features` is needed), then in every state
reached by the loop of `fit` the sequence `feature_indices` is a rearrangement of
`0, ..., num_features - 1`, and the feature subset of a split attempt in that state (the one
handed to the split strategy at lines 92-94) has exactly `max_features` elements, which are
pairwise distinct and smaller than `num_features`; after the attempt `feature_indices` is again
such a rearrangement. -/
theorem feature_subset_valid (k : Nat) (make_internal_node : split_strategy S)
    (shuffle : shuffle_fn RNG) (data : data_container) (tree_opts : tree_options)
    (the_nodes : List (k_ary_node S)) (rng : RNG) (passes : Nat) (s : fit_state S RNG)
    (hperm : shuffle_permutes shuffle)
    (hmf : tree_opts.max_features < data.num_features)
    (h : fit_run k make_internal_node shuffle data tree_opts passes
      (fit_init the_nodes data rng) = Except.ok s) :
    List.Perm s.feature_indices (List.range data.num_features) ∧
    (feature_subset shuffle tree_opts { s with the_nodes := resize_nodes s }).length =
      tree_opts.max_features ∧
    (feature_subset shuffle tree_opts { s with the_nodes := resize_nodes s }).Nodup ∧
    (∀ f ∈ feature_subset shuffle tree_opts { s with the_nodes := resize_nodes s },
      f < data.num_features) ∧
    (∀ front s1, split_attempt make_internal_node shuffle data tree_opts front
        { s with the_nodes := resize_nodes s } = Except.ok s1 →
      List.Perm s1.feature_indices (List.range data.num_features) ∧
      ∃ node, s1.tmp_nodes = (make_internal_node node front data
        (feature_subset shuffle tree_opts { s with the_nodes := resize_nodes s })
        (resize_nodes s).length s.tmp_nodes).2) := by
  have hinv : List.Perm s.feature_indices (List.range data.num_features) :=
    fit_run_invariant k make_internal_node shuffle data tree_opts
      (fun s => List.Perm s.feature_indices (List.range data.num_features))
      (fun s s' hs _ hit => by
        rcases fit_iteration_features hit with hf | hf
        · rw [hf]; exact hs
        · rw [hf]; exact (hperm _ _).trans hs)
      passes _ s (List.Perm.refl _) h
  have hshuf : List.Perm (shuffle s.feature_indices s.rng).1 (List.range data.num_features) :=
    (hperm _ _).trans hinv
  have hlen : (shuffle s.feature_indices s.rng).1.length = data.num_features := by
    rw [hshuf.length_eq, List.length_range]
  have hsub : List.Sublist (feature_subset shuffle tree_opts
      { s with the_nodes := resize_nodes s }) (shuffle s.feature_indices s.rng).1 :=
    List.take_sublist _ _
  refine ⟨hinv, ?_, ?_, ?_, ?_⟩
  · unfold feature_subset
    rw [List.length_take]
    simp only
    omega
  · exact List.Nodup.sublist hsub (hshuf.nodup_iff.mpr (List.nodup_range _))
  · intro f hf
    exact List.mem_range.mp (hshuf.mem_iff.mp (hsub.subset hf))
  · intro front s1 h1
    obtain ⟨node, -, hq1, hf1⟩ := split_attempt_features h1
    exact ⟨by rw [hf1]; exact hshuf, node, hq1⟩

theorem feature_subset_valid_witness :
    fit_run 2 halving_split rotate_features (alternating 4) example_opts 1
        (fit_init [] (alternating 4) 0) = Except.ok rotated_state_after_root ∧
    (List.Perm rotated_state_after_root.feature_indices
        (List.range (alternating 4).num_features) ∧
    (feature_subset rotate_features example_opts { rotated_state_after_root with
        the_nodes := resize_nodes rotated_state_after_root }).length =
      example_opts.max_features ∧
    (feature_subset rotate_features example_opts { rotated_state_after_root with
        the_nodes := resize_nodes rotated_state_after_root }).Nodup ∧
    (∀ f ∈ feature_subset rotate_features example_opts { rotated_state_after_root with
        the_nodes := resize_nodes rotated_state_after_root },
      f < (alternating 4).num_features) ∧
    (∀ front s1, split_attempt halving_split rotate_features (alternating 4) example_opts front
        { rotated_state_after_root with
          the_nodes := resize_nodes rotated_state_after_root } = Except.ok s1 →
      List.Perm s1.feature_indices (List.range (alternating 4).num_features) ∧
      ∃ node, s1.tmp_nodes = (halving_split node front (alternating 4)
        (feature_subset rotate_features example_opts { rotated_state_after_root with
          the_nodes := resize_nodes rotated_state_after_root })
        (resize_nodes rotated_state_after_root).length
        rotated_state_after_root.tmp_nodes).2)) :=
  ⟨rfl, feature_subset_valid 2 halving_split rotate_features (alternating 4) example_opts [] 0 1
    rotated_state_after_root rotate_features_permutes (by decide) rfl⟩

end features

section order
variable {S RNG : Type}

/-- One pass of the loop treats the queue first in, first out: it removes the front descriptor
and leaves the other descriptors in their order, followed by the descriptors that the pass has
appended and kept; each of these names the front descriptor as parent and is one level below
it. -/
theorem fit_iteration_fifo {k : Nat} {make_internal_node : split_strategy S}
    {shuffle : shuffle_fn RNG} {data : data_container} {tree_opts : tree_options}
    {s s' : fit_state S RNG} {front : temporary_node} {rest : List temporary_node}
    (hs : appends_consecutive k make_internal_node)
    (hc : appends_children_of_front make_internal_node)
    (hq : s.tmp_nodes = front :: rest)
    (h : fit_iteration k make_internal_node shuffle data tree_opts s = Except.ok s') :
    ∃ new, s'.tmp_nodes = rest ++ new ∧
      ∀ c ∈ new, c.parent_index = front.node_index ∧ c.node_level = front.node_level + 1 := by
  obtain ⟨-, hcase⟩ := fit_iteration_cases hs hq h
  rcases hcase with ⟨-, ht⟩ | ⟨split, children, node, fs, hout, -, -, -, -, ht⟩
  · exact ⟨[], by rw [ht, List.append_nil], by intro c hcm; cases hcm⟩
  · obtain ⟨children', hout', hpar⟩ :=
      hc node front data fs (resize_nodes s).length (front :: rest)
    rw [hout] at hout'
    have hsame : children = children' := List.append_cancel_left hout'
    subst hsame
    exact ⟨children, ht, hpar⟩

theorem fit_run_fifo (k : Nat) (make_internal_node : split_strategy S)
    (shuffle : shuffle_fn RNG) (data : data_container) (tree_opts : tree_options)
    (hs : appends_consecutive k make_internal_node)
    (hc : appends_children_of_front make_internal_node) :
    ∀ (n : Nat) (s0 s : fit_state S RNG),
      fit_run k make_internal_node shuffle data tree_opts n s0 = Except.ok s →
      s0.tmp_nodes ++ fit_appended k make_internal_node shuffle data tree_opts n s0 =
        fit_consumed k make_internal_node shuffle data tree_opts n s0 ++ s.tmp_nodes
  | 0, s0, s, h => by
    unfold fit_run at h
    cases h
    simp [fit_appended, fit_consumed]
  | n + 1, s0, s, h => by
    by_cases hq0 : s0.tmp_nodes = []
    · rw [fit_run_of_empty _ _ _ _ _ _ _ hq0] at h
      cases h
      unfold fit_appended fit_consumed
      rw [hq0]
    · obtain ⟨front, rest, hq⟩ := List.exists_cons_of_ne_nil hq0
      cases hit : fit_iteration k make_internal_node shuffle data tree_opts s0 with
      | error e =>
        unfold fit_run at h
        rw [hq] at h
        simp only [hit] at h
        cases h
      | ok s1 =>
        rw [fit_run_succ_of_iteration _ _ _ _ _ n s0 s1 hq0 hit] at h
        have ih := fit_run_fifo k make_internal_node shuffle data tree_opts hs hc n s1 s h
        obtain ⟨new, hnew, -⟩ := fit_iteration_fifo hs hc hq hit
        unfold fit_appended fit_consumed
        rw [hq]
        simp only [hit]
        rw [List.cons_append, List.cons_append, ← ih, hnew, List.drop_left, List.append_assoc]

theorem fit_run_levels (k : Nat) (make_internal_node : split_strategy S)
    (shuffle : shuffle_fn RNG) (data : data_container) (tree_opts : tree_options)
    (hs : appends_consecutive k make_internal_node)
    (hc : appends_children_of_front make_internal_node) :
    ∀ (n : Nat) (s0 s : fit_state S RNG),
      List.Pairwise (fun a b => a.node_level ≤ b.node_level) s0.tmp_nodes →
      (∀ front rest, s0.tmp_nodes = front :: rest →
        ∀ t ∈ rest, t.node_level ≤ front.node_level + 1) →
      fit_run k make_internal_node shuffle data tree_opts n s0 = Except.ok s →
      List.Pairwise (fun a b => a.node_level ≤ b.node_level)
        (fit_consumed k make_internal_node shuffle data tree_opts n s0 ++ s.tmp_nodes) ∧
      ∀ L, (∀ t ∈ s0.tmp_nodes, L ≤ t.node_level) →
        ∀ t ∈ fit_consumed k make_internal_node shuffle data tree_opts n s0 ++ s.tmp_nodes,
          L ≤ t.node_level
  | 0, s0, s, hsorted, _, h => by
    unfold fit_run at h
    cases h
    simp only [fit_consumed, List.nil_append]
    exact ⟨hsorted, fun L hL => hL⟩
  | n + 1, s0, s, hsorted, hnear, h => by
    by_cases hq0 : s0.tmp_nodes = []
    · rw [fit_run_of_empty _ _ _ _ _ _ _ hq0] at h
      cases h
      unfold fit_consumed
      rw [hq0]
      simp
    · obtain ⟨front, rest, hq⟩ := List.exists_cons_of_ne_nil hq0
      cases hit : fit_iteration k make_internal_node shuffle data tree_opts s0 with
      | error e =>
        unfold fit_run at h
        rw [hq] at h
        simp only [hit] at h
        cases h
      | ok s1 =>
        rw [fit_run_succ_of_iteration _ _ _ _ _ n s0 s1 hq0 hit] at h
        obtain ⟨new, hnew, hpar⟩ := fit_iteration_fifo hs hc hq hit
        rw [hq, List.pairwise_cons] at hsorted
        obtain ⟨hfront, hrest⟩ := hsorted
        have hnear0 := hnear front rest hq
        have hge1 : ∀ t ∈ s1.tmp_nodes, front.node_level ≤ t.node_level := by
          intro t ht
          rw [hnew, List.mem_append] at ht
          rcases ht with ht | ht
          · exact hfront t ht
          · rw [(hpar t ht).2]; omega
        have hle1 : ∀ t ∈ s1.tmp_nodes, t.node_level ≤ front.node_level + 1 := by
          intro t ht
          rw [hnew, List.mem_append] at ht
          rcases ht with ht | ht
          · exact hnear0 t ht
          · rw [(hpar t ht).2]
        have hsorted1 : List.Pairwise (fun a b => a.node_level ≤ b.node_level)
            s1.tmp_nodes := by
          rw [hnew, List.pairwise_append]
          refine ⟨hrest, ?_, ?_⟩
          · apply List.pairwise_of_forall_mem_list
            intro a ha b hb
            rw [(hpar a ha).2, (hpar b hb).2]
          · intro a ha b hb
            rw [(hpar b hb).2]
            exact hnear0 a ha
        have hnear1 : ∀ f1 r1, s1.tmp_nodes = f1 :: r1 →
            ∀ t ∈ r1, t.node_level ≤ f1.node_level + 1 := by
          intro f1 r1 hq1 t ht
          have h1 := hge1 f1 (by rw [hq1]; exact List.mem_cons_self _ _)
          have h2 := hle1 t (by rw [hq1]; exact List.mem_cons_of_mem _ ht)
          omega
        obtain ⟨ihs, ihl⟩ := fit_run_levels k make_internal_node shuffle data tree_opts hs hc
          n s1 s hsorted1 hnear1 h
        unfold fit_consumed
        rw [hq]
        simp only [hit, List.cons_append]
        constructor
        · rw [List.pairwise_cons]
          exact ⟨ihl front.node_level hge1, ihs⟩
        · intro L hL t ht
          rw [List.mem_cons] at ht
          rcases ht with rfl | ht
          · exact hL _ (List.mem_cons_self _ _)
          · have hLf := hL front (List.mem_cons_self _ _)
            exact ihl L (fun t' ht' => Nat.le_trans hLf (hge1 t' ht')) t ht

theorem fit_consumed_parents (k : Nat) (make_internal_node : split_strategy S)
    (shuffle : shuffle_fn RNG) (data : data_container) (tree_opts : tree_options)
    (hs : appends_consecutive k make_internal_node)
    (hc : appends_children_of_front make_internal_node) :
    ∀ (n : Nat) (s0 : fit_state S RNG) (acc : List temporary_node),
      ((acc = [] ∧ s0.tmp_nodes.length ≤ 1) ∨
        ∀ t ∈ s0.tmp_nodes, ∃ p ∈ acc,
          t.parent_index = p.node_index ∧ t.node_level = p.node_level + 1) →
      ∀ j t,
        (acc ++ fit_consumed k make_internal_node shuffle data tree_opts n s0)[j]? = some t →
        acc.length ≤ j →
        j = 0 ∨ ∃ i p, i < j ∧
          (acc ++ fit_consumed k make_internal_node shuffle data tree_opts n s0)[i]? = some p ∧
          t.parent_index = p.node_index ∧ t.node_level = p.node_level + 1
  | 0, s0, acc, _, j, t, hj, hle => by
    simp only [fit_consumed, List.append_nil] at hj
    rw [List.getElem?_eq_none hle] at hj
    cases hj
  | n + 1, s0, acc, hinv, j, t, hj, hle => by
    by_cases hq0 : s0.tmp_nodes = []
    · unfold fit_consumed at hj
      rw [hq0] at hj
      simp only [List.append_nil] at hj
      rw [List.getElem?_eq_none hle] at hj
      cases hj
    · obtain ⟨front, rest, hq⟩ := List.exists_cons_of_ne_nil hq0
      cases hit : fit_iteration k make_internal_node shuffle data tree_opts s0 with
      | error e =>
        unfold fit_consumed at hj
        rw [hq] at hj
        simp only [hit, List.append_nil] at hj
        rw [List.getElem?_eq_none hle] at hj
        cases hj
      | ok s1 =>
        obtain ⟨new, hnew, hpar⟩ := fit_iteration_fifo hs hc hq hit
        have hunf : fit_consumed k make_internal_node shuffle data tree_opts (n + 1) s0 =
            front :: fit_consumed k make_internal_node shuffle data tree_opts n s1 := by
          conv => lhs; unfold fit_consumed
          rw [hq]
          simp only [hit]
        have hassoc : acc ++ fit_consumed k make_internal_node shuffle data tree_opts (n + 1) s0 =
            (acc ++ [front]) ++
              fit_consumed k make_internal_node shuffle data tree_opts n s1 := by
          rw [hunf, List.append_assoc, List.singleton_append]
        by_cases hjacc : j = acc.length
        · subst hjacc
          have ht : t = front := by
            rw [hassoc, List.getElem?_append_left (by simp), List.getElem?_concat_length] at hj
            cases hj
            rfl
          subst ht
          rcases hinv with ⟨hnil, -⟩ | hparents
          · left
            rw [hnil]
            rfl
          · right
            obtain ⟨p, hp, hpp⟩ := hparents t (by rw [hq]; exact List.mem_cons_self _ _)
            obtain ⟨i, hi⟩ := List.getElem?_of_mem hp
            have hilt : i < acc.length := (List.getElem?_eq_some.mp hi).1
            exact ⟨i, p, hilt, by rw [List.getElem?_append_left hilt]; exact hi, hpp⟩
        · have hinv1 : (acc ++ [front] = [] ∧ s1.tmp_nodes.length ≤ 1) ∨
              ∀ t ∈ s1.tmp_nodes, ∃ p ∈ acc ++ [front],
                t.parent_index = p.node_index ∧ t.node_level = p.node_level + 1 := by
            right
            intro t' ht'
            rw [hnew, List.mem_append] at ht'
            rcases ht' with ht' | ht'
            · rcases hinv with ⟨-, hlen⟩ | hparents
              · rw [hq] at hlen
                simp only [List.length_cons] at hlen
                have : rest = [] := List.length_eq_zero.mp (by omega)
                rw [this] at ht'
                cases ht'
              · obtain ⟨p, hp, hpp⟩ := hparents t' (by rw [hq]; exact List.mem_cons_of_mem _ ht')
                exact ⟨p, List.mem_append_left _ hp, hpp⟩
            · exact ⟨front, List.mem_append_right _ (List.mem_singleton_self _), hpar t' ht'⟩
          have hle1 : (acc ++ [front]).length ≤ j := by
            simp only [List.length_append, List.length_singleton]
            omega
          rw [hassoc] at hj ⊢
          exact fit_consumed_parents k make_internal_node shuffle data tree_opts hs hc n s1
            (acc ++ [front]) hinv1 j t hj hle1

theorem halving_split_appends_children_of_front : appends_children_of_front halving_split := by
  intro _ front _ _ next_index _
  refine ⟨_, rfl, ?_⟩
  intro c hc
  simp only [List.mem_cons, List.mem_singleton, List.not_mem_nil, or_false] at hc
  rcases hc with rfl | rfl <;> exact ⟨rfl, rfl⟩

/-- C16: with a split strategy that appends exactly `k` descriptors, numbered
`next_index, ..., next_index + k - 1`, each naming the split descriptor as parent and one level
below it, in every state that a run of `fit` reaches: the descriptors consumed so far followed
by the descriptors still queued are the root descriptor followed by the descriptors appended
and kept, in the order in which they were appended; the levels along this sequence never
decrease; and every consumed descriptor other than the first has its parent among the
descriptors consumed before it. -/
theorem fifo_order (k : Nat) (make_internal_node : split_strategy S)
    (shuffle : shuffle_fn RNG) (data : data_container) (tree_opts : tree_options)
    (the_nodes : List (k_ary_node S)) (rng : RNG) (passes : Nat) (s : fit_state S RNG)
    (hs : appends_consecutive k make_internal_node)
    (hc : appends_children_of_front make_internal_node)
    (h : fit_run k make_internal_node shuffle data tree_opts passes
      (fit_init the_nodes data rng) = Except.ok s) :
    (fit_init the_nodes data rng).tmp_nodes ++
        fit_appended k make_internal_node shuffle data tree_opts passes
          (fit_init the_nodes data rng) =
      fit_consumed k make_internal_node shuffle data tree_opts passes
        (fit_init the_nodes data rng) ++ s.tmp_nodes ∧
    List.Pairwise (fun a b => a.node_level ≤ b.node_level)
      (fit_consumed k make_internal_node shuffle data tree_opts passes
        (fit_init the_nodes data rng) ++ s.tmp_nodes) ∧
    ∀ j t, (fit_consumed k make_internal_node shuffle data tree_opts passes
        (fit_init the_nodes data rng))[j]? = some t →
      j = 0 ∨ ∃ i p, i < j ∧
        (fit_consumed k make_internal_node shuffle data tree_opts passes
          (fit_init the_nodes data rng))[i]? = some p ∧
        t.parent_index = p.node_index ∧ t.node_level = p.node_level + 1 := by
  refine ⟨fit_run_fifo k make_internal_node shuffle data tree_opts hs hc passes _ s h, ?_, ?_⟩
  · exact (fit_run_levels k make_internal_node shuffle data tree_opts hs hc passes _ s
      (List.pairwise_singleton _ _)
      (by intro front rest hq t ht
          simp only [fit_init, List.cons.injEq] at hq
          rw [← hq.2] at ht
          cases ht) h).1
  · intro j t hj
    have := fit_consumed_parents k make_internal_node shuffle data tree_opts hs hc passes
      (fit_init the_nodes data rng) [] (Or.inl ⟨rfl, by simp [fit_init]⟩) j t
      (by rw [List.nil_append]; exact hj) (Nat.zero_le _)
    simpa only [List.nil_append] using this

theorem fifo_order_witness :
    fit_run 2 halving_split keep_order (alternating 8) { example_opts with max_depth := 5 } 10
        (fit_init [] (alternating 8) ()) = Except.ok deep_example_result ∧
    fit_consumed 2 halving_split keep_order (alternating 8) { example_opts with max_depth := 5 }
        10 (fit_init [] (alternating 8) ()) = deep_example_consumed ∧
    ((fit_init ([] : List (k_ary_node (List Nat))) (alternating 8) ()).tmp_nodes ++
        fit_appended 2 halving_split keep_order (alternating 8)
          { example_opts with max_depth := 5 } 10 (fit_init [] (alternating 8) ()) =
      fit_consumed 2 halving_split keep_order (alternating 8)
        { example_opts with max_depth := 5 } 10 (fit_init [] (alternating 8) ()) ++
        deep_example_result.tmp_nodes ∧
    List.Pairwise (fun a b => a.node_level ≤ b.node_level)
      (fit_consumed 2 halving_split keep_order (alternating 8)
        { example_opts with max_depth := 5 } 10 (fit_init [] (alternating 8) ()) ++
        deep_example_result.tmp_nodes) ∧
    ∀ j t, (fit_consumed 2 halving_split keep_order (alternating 8)
        { example_opts with max_depth := 5 } 10 (fit_init [] (alternating 8) ()))[j]? =
        some t →
      j = 0 ∨ ∃ i p, i < j ∧
        (fit_consumed 2 halving_split keep_order (alternating 8)
          { example_opts with max_depth := 5 } 10 (fit_init [] (alternating 8) ()))[i]? =
          some p ∧
        t.parent_index = p.node_index ∧ t.node_level = p.node_level + 1) :=
  ⟨rfl, rfl, fifo_order 2 halving_split keep_order (alternating 8)
    { example_opts with max_depth := 5 } [] () 10 deep_example_result
    halving_split_appends_consecutive halving_split_appends_children_of_front rfl⟩

end order

end rfr
